import Mathlib

/-!
# gogogo: cross-platform build orchestration

A shallow embedding of `src/MyModule/src/gogogo/gogogo.go`: the platform
resolver (`parsePlatforms`), the job executor (`buildSingle`) and the
orchestrator (`buildWithProgress`), followed by the theorems that settle the
claims of the specification.

Conventions of the embedding.

* A Go `string` is a Lean `String`, read as its sequence of code points.
* Everything the program observes outside itself (the output of
  `go tool dist list`, the host constants of package `runtime`, the file
  system, standard input, the compiler) is a field of `Host`; the global
  `config` is an explicit `Config` argument.
* Printing and logging are left out: no function of the program reads back what
  it printed.
* `filepath.Join` is the one of a host with slash-separated paths (the module
  runs on Android and Linux).
* A Go `int` is the one of a 64-bit host: the loop counter `attempt` and the
  `time.Duration` of a backoff sleep are signed 64-bit values that wrap around
  (`wrapInt64`).
-/

namespace Gogogo

/-! ## Strings -/

/-- The pieces of `s` between the occurrences of `sep`: `n + 1` pieces for `n`
occurrences, so the empty input yields one empty piece. -/
def splitChars (sep : Char) : List Char → List (List Char)
  | [] => [[]]
  | c :: cs =>
    if c = sep then [] :: splitChars sep cs
    else
      match splitChars sep cs with
      | [] => [[c]]
      | p :: ps => (c :: p) :: ps

/-- Go `strings.Split(s, sep)` for a separator of one character (the
program splits on `","`, `"/"` and `"\n"` only). -/
def Split (s : String) (sep : Char) : List String :=
  (splitChars sep s.data).map String.mk

/-- Go `strings.Contains(s, sep)` for a separator of one character. -/
def Contains (s : String) (sep : Char) : Bool :=
  s.data.elem sep

/-- Go `unicode.IsSpace`: the Latin-1 spaces and the code points with the
Unicode White_Space property. -/
def isSpace (c : Char) : Bool :=
  let n := c.toNat
  n = 0x09 || n = 0x0A || n = 0x0B || n = 0x0C || n = 0x0D || n = 0x20 ||
  n = 0x85 || n = 0xA0 || n = 0x1680 || (0x2000 ≤ n && n ≤ 0x200A) ||
  n = 0x2028 || n = 0x2029 || n = 0x202F || n = 0x205F || n = 0x3000

/-- Drop the white space at the end of a sequence of characters. -/
def trimRight (cs : List Char) : List Char :=
  (cs.reverse.dropWhile isSpace).reverse

/-- Go `strings.TrimSpace`: drop leading and trailing white space. -/
def TrimSpace (s : String) : String :=
  ⟨trimRight (s.data.dropWhile isSpace)⟩

/-! ## Data model -/

/-- The struct `BuildTarget`. -/
structure BuildTarget where
  GOOS : String
  GOARCH : String
  Name : String
deriving DecidableEq, Repr

/-- The struct `Config` (the global `config`). -/
structure Config where
  SourceFile : String := ""
  OutputDir : String := "./build"
  BinaryName : String := ""
  Platforms : List String := ["default"]
  Verbose : Int := 1
  Parallel : Bool := true
  Compress : Bool := false
  Clean : Bool := false
  Retry : Bool := true
  MaxRetries : Int := 2
  Progress : Bool := true
  LDFlags : String := ""
  Tags : String := ""
  SkipTests : Bool := false
  SkipCGO : Bool := false
  Force : Bool := false
  NoPrompt : Bool := false
  All : Bool := false

/-- The command built by `exec.Command(name, args...)`: `Args` holds the
command name followed by the arguments, copied when the command is made. -/
structure Cmd where
  Path : String
  Args : List String
  Env : List String
deriving DecidableEq, Repr

/-- What one call into the program observes outside the program. -/
structure Host where
  /-- The constant `runtime.GOOS`. -/
  GOOS : String
  /-- The constant `runtime.GOARCH`. -/
  GOARCH : String
  /-- The result of `os.Environ()`. -/
  Environ : List String
  /-- Standard output of `go tool dist list`, or `none` when the command fails. -/
  distList : Option String
  /-- The error of `os.MkdirAll(dir, 0755)`, `none` for success. -/
  mkdirAll : String → Option String
  /-- Whether `exec.LookPath(name)` finds the tool. -/
  lookPath : String → Bool
  /-- The line `scanner.Scan()` reads from standard input, `none` when there is none. -/
  stdin : Option String
  /-- Go `unicode.ToLower` (the case table of the Go library). -/
  toLower : Char → Char
  /-- The result of `cmd.CombinedOutput()`: the captured output and the error,
  `none` when the compiler exits with status zero. -/
  combinedOutput : Cmd → String × Option String

/-- The map `PlatformGroups`, as its lookup function. -/
def PlatformGroups (name : String) : Option (List String) :=
  if name = "default" then
    some ["windows/amd64", "windows/386", "windows/arm64",
          "linux/amd64", "linux/386", "linux/arm64", "linux/arm",
          "darwin/amd64", "darwin/arm64",
          "android/arm64"]
  else if name = "desktop" then
    some ["windows/amd64", "windows/386", "windows/arm64",
          "linux/amd64", "linux/386", "linux/arm64", "linux/arm",
          "darwin/amd64", "darwin/arm64"]
  else if name = "server" then
    some ["linux/amd64", "linux/arm64",
          "freebsd/amd64", "freebsd/arm64"]
  else if name = "mobile" then
    some ["android/arm64", "android/arm",
          "ios/amd64", "ios/arm64"]
  else if name = "web" then
    some ["js/wasm"]
  else if name = "embedded" then
    some ["linux/arm", "linux/arm64",
          "linux/mips", "linux/mips64",
          "linux/riscv64"]
  else none

/-! ## Platform resolver -/

/-- The function `getAllSupportedPlatforms`: the trimmed, non-empty lines of the
discovery output that contain a slash; `none` when the discovery command
fails. -/
def getAllSupportedPlatforms (host : Host) : Option (List String) :=
  match host.distList with
  | none => none
  | some output =>
    some (((Split (TrimSpace output) '\n').map TrimSpace).filter
      (fun platform => platform != "" && Contains platform '/'))

/-- The function `getArchsForOS`: the architectures the catalog lists for
`targetOS`. -/
def getArchsForOS (host : Host) (targetOS : String) : Option (List String) :=
  match getAllSupportedPlatforms host with
  | none => none
  | some allPlatforms =>
    some (allPlatforms.filterMap (fun platform =>
      match Split platform '/' with
      | [os, arch] => if os = targetOS then some arch else none
      | _ => none))

/-- The function `getNativeArch`. -/
def getNativeArch (host : Host) : String :=
  host.GOARCH

/-- The static list `fallbackAll` of `parsePlatforms`. -/
def fallbackAll : List String :=
  ["windows/amd64", "windows/386", "windows/arm64",
   "linux/amd64", "linux/386", "linux/arm64", "linux/arm",
   "darwin/amd64", "darwin/arm64",
   "freebsd/amd64", "freebsd/arm64",
   "android/arm64", "android/arm",
   "ios/amd64", "ios/arm64",
   "js/wasm",
   "linux/mips", "linux/mips64",
   "linux/riscv64",
   "openbsd/amd64", "netbsd/amd64",
   "dragonfly/amd64", "solaris/amd64"]

/-- The loop `for _, p := range ... { parts := strings.Split(p, "/"); if
len(parts) == 2 { targets = append(targets, ...) } }` that the `all` branch
and the group branch of `parsePlatforms` share. -/
def appendLabels (targets : List BuildTarget) : List String → List BuildTarget
  | [] => targets
  | p :: rest =>
    match Split p '/' with
    | [os, arch] => appendLabels (targets ++ [⟨os, arch, p⟩]) rest
    | _ => appendLabels targets rest

/-- One iteration of the loop of `parsePlatforms` over the comma-separated
pieces: `targets` is the slice built so far, `raw` the piece; a `continue`
of the source returns `targets` as it is. -/
def parseToken (cfg : Config) (host : Host) (targets : List BuildTarget)
    (raw : String) : List BuildTarget :=
  let platform := TrimSpace raw
  if platform = "all" then
    let allPlatforms :=
      match getAllSupportedPlatforms host with
      | some ps => ps
      | none => fallbackAll
    appendLabels targets allPlatforms
  else
    match PlatformGroups platform with
    | some group => appendLabels targets group
    | none =>
      if Contains platform '/' then
        match Split platform '/' with
        | [os, arch] => targets ++ [⟨os, arch, platform⟩]
        | _ => targets
      else if cfg.All then
        match getArchsForOS host platform with
        | none => targets
        | some archs =>
          if archs.length = 0 then targets
          else targets ++ archs.map (fun arch => ⟨platform, arch, platform ++ "/" ++ arch⟩)
      else
        let nativeArch := getNativeArch host
        match getArchsForOS host platform with
        | none => targets
        | some supportedArchs =>
          if supportedArchs.any (fun arch => arch = nativeArch) then
            targets ++ [nativeArch].map (fun arch => ⟨platform, arch, platform ++ "/" ++ arch⟩)
          else targets

/-- The function `parsePlatforms`. -/
def parsePlatforms (cfg : Config) (host : Host) (platformStr : String) : List BuildTarget :=
  (Split platformStr ',').foldl (parseToken cfg host) []

/-! ## Output paths -/

/-- One step of the loop of Go `filepath.Clean` (slash-separated paths),
taken per path element instead of per byte: `out` holds the elements written to
the buffer so far and `e` is the element between two separators that the loop
reads next. The cases are those of the `switch` in the library: an empty
element and `.` are dropped; `..` removes the last element when it can
backtrack (the buffer ends in an element that is not part of a leading run of
`..`), is appended when it cannot and the path is not rooted, and is dropped
at the root; every other element is appended. -/
def cleanStep (rooted : Bool) (out : List (List Char)) (e : List Char) : List (List Char) :=
  if e = [] then out
  else if e = ['.'] then out
  else if e = ['.', '.'] then
    if out ≠ [] ∧ out.getLast? ≠ some ['.', '.'] then out.dropLast
    else if !rooted then out ++ [e]
    else out
  else out ++ [e]

/-- Go `filepath.Clean` on a host with slash-separated paths: the shortest
path equivalent to `path` by lexical processing; the empty result is `.`. -/
def Clean (path : String) : String :=
  if path = "" then "."
  else
    let rooted := path.data.head? = some '/'
    let out := (splitChars '/' path.data).foldl (cleanStep rooted) []
    if rooted then ⟨'/' :: List.intercalate ['/'] out⟩
    else if out = [] then "."
    else ⟨List.intercalate ['/'] out⟩

/-- Go `filepath.Join`: the elements from the first non-empty one on, joined
with slashes, then cleaned; the empty string when every element is empty. -/
def Join (elem : List String) : String :=
  match elem.dropWhile (fun e => e = "") with
  | [] => ""
  | rest => Clean ⟨List.intercalate ['/'] (rest.map String.data)⟩

/-- The output file name and path that `buildSingle` computes for a target. -/
def outputPath (target : BuildTarget) (outputDir binaryName : String) : String :=
  let filename := if target.GOOS = "windows" then binaryName ++ ".exe" else binaryName
  Join [outputDir, target.Name, filename]

/-! ## Job executor -/

/-- The non-nil errors `buildSingle` returns: the sentinel `ErrSkipped`, or an
error made by `fmt.Errorf` (which wraps nothing, so `errors.Is(err,
ErrSkipped)` holds for the sentinel alone). -/
inductive BuildError where
  | ErrSkipped
  | failed (msg : String)
deriving DecidableEq, Repr

/-- Go `strings.ToLower` with the case table of the host. -/
def ToLower (host : Host) (s : String) : String :=
  ⟨s.data.map host.toLower⟩

/-- The function `askUserConfirm`. -/
def askUserConfirm (cfg : Config) (host : Host) : Bool :=
  if cfg.NoPrompt then true
  else
    match host.stdin with
    | some text =>
      let response := ToLower host (TrimSpace text)
      response = "y" || response = "yes"
    | none => false

/-- The loop of `buildSingle` that puts `-ldflags newLDFlags` in front of the
first `-o` of `args` and stops there. -/
def insertLDFlags (newLDFlags : String) : List String → List String
  | [] => []
  | arg :: rest =>
    if arg = "-o" then "-ldflags" :: newLDFlags :: arg :: rest
    else arg :: insertLDFlags newLDFlags rest

/-- The local variables `cmd` and `args` of `buildSingle`. -/
structure Prepared where
  cmd : Cmd
  args : List String
deriving DecidableEq, Repr

/-- The platform-specific block of `buildSingle` (`if target.GOOS == "js" ...
else if "ios" ... else if "android" ... else`): it extends `cmd.Env`, may
return early with an error, and in the android branch assigns a new slice
to the local variable `args`. -/
def platformSetup (cfg : Config) (host : Host) (target : BuildTarget)
    (cmd : Cmd) (args : List String) : Except BuildError Prepared :=
  if target.GOOS = "js" then
    .ok ⟨{ cmd with Env := cmd.Env ++ ["CGO_ENABLED=0"] }, args⟩
  else if target.GOOS = "ios" then
    if host.GOOS ≠ "darwin" ∧ ¬ cfg.Force then .error .ErrSkipped
    else if host.GOOS = "darwin" ∧ ¬ host.lookPath "xcodebuild" then
      .error (.failed "iOS编译需要安装Xcode和Command Line Tools")
    else .ok ⟨{ cmd with Env := cmd.Env ++ ["CGO_ENABLED=1"] }, args⟩
  else if target.GOOS = "android" then
    if cfg.Verbose ≥ 1 ∧ ¬ askUserConfirm cfg host then .error .ErrSkipped
    else
      let cmd := { cmd with Env := cmd.Env ++ ["CGO_ENABLED=1"] }
      if cfg.LDFlags = "" then
        .ok ⟨cmd, insertLDFlags "-linkmode=external -extldflags=-static" args⟩
      else .ok ⟨cmd, args⟩
  else
    .ok ⟨{ cmd with Env := cmd.Env ++ ["CGO_ENABLED=0"] }, args⟩

/-- One call of `buildSingle`: the error it returns (`none` for `nil`), the
command it ran through `cmd.CombinedOutput()` when it got that far, and the
last value of its local variable `args`. -/
structure BuildRun where
  err : Option BuildError
  invoked : Option Cmd
  args : List String
deriving DecidableEq, Repr

/-- The function `buildSingle`. A failure of `compressFile` is only logged, so
the compression step does not show in the result. -/
def buildSingle (cfg : Config) (host : Host) (target : BuildTarget)
    (sourceFile outputDir binaryName : String) : BuildRun :=
  if cfg.SkipCGO ∧ (target.GOOS = "android" ∨ target.GOOS = "ios") then
    ⟨some .ErrSkipped, none, []⟩
  else
    let outputPath := outputPath target outputDir binaryName
    match host.mkdirAll outputPath with
    | some e => ⟨some (.failed ("创建输出目录失败: " ++ e)), none, []⟩
    | none =>
      let args := ["build"]
      let args := if cfg.LDFlags ≠ "" then args ++ ["-ldflags", cfg.LDFlags] else args
      let args := if cfg.Tags ≠ "" then args ++ ["-tags", cfg.Tags] else args
      let args := args ++ ["-o", outputPath, sourceFile]
      let cmd : Cmd :=
        ⟨"go", "go" :: args, host.Environ ++ ["GOOS=" ++ target.GOOS, "GOARCH=" ++ target.GOARCH]⟩
      match platformSetup cfg host target cmd args with
      | .error e => ⟨some e, none, args⟩
      | .ok p =>
        match host.combinedOutput p.cmd with
        | (output, some err) =>
          ⟨some (.failed ("编译失败 [" ++ target.Name ++ "]: " ++ err ++ "\n输出: " ++ output)),
            some p.cmd, p.args⟩
        | (_, none) => ⟨none, some p.cmd, p.args⟩

/-! ## Orchestrator -/

/-- The Go constant `time.Second`, in nanoseconds. -/
def Second : Int := 1000000000

/-- What the retry loop of one worker does, in order: `call i run` is the call
of the executor in iteration `i` of the loop (counted from 0), `sleep d` a
`time.Sleep(d)`. -/
inductive Event where
  | call (attempt : Nat) (run : BuildRun)
  | sleep (d : Int)
deriving DecidableEq, Repr

/-- The variable `err` of a worker and the events of its retry loop so far. -/
structure JobResult where
  err : Option BuildError
  trace : List Event
deriving DecidableEq, Repr

/-- The largest value of a Go `int` (and of a `time.Duration`). -/
def MaxInt : Int := 9223372036854775807

/-- Signed 64-bit wrap-around: what Go keeps of the result of an `int` or
`int64` operation. -/
def wrapInt64 (x : Int) : Int :=
  (x + 9223372036854775808) % 18446744073709551616 - 9223372036854775808

/-- The loop `for attempt := 0; attempt <= config.MaxRetries; attempt++` of a
worker, from its header on. `i` is the number of iterations done so far, so
the counter `attempt`, an `int` that started at 0 and was incremented `i`
times, is `wrapInt64 i`, and `exec i` is what the next call of `buildSingle`
does. `fuel` bounds the number of times the header is still evaluated; the
result is `none` when it runs out. The body calls the executor, does `break`
on `nil`, sleeps `time.Second * time.Duration(attempt+1)` (an `int64`
product) when `attempt < config.MaxRetries && config.Retry`, and goes back to
the header in every other case. -/
def retryLoop (cfg : Config) (exec : Nat → BuildRun) : Nat → Nat → JobResult → Option JobResult
  | 0, _, _ => none
  | fuel + 1, i, st =>
    let attempt := wrapInt64 i
    if attempt ≤ cfg.MaxRetries then
      let run := exec i
      let st : JobResult := ⟨run.err, st.trace ++ [.call i run]⟩
      match run.err with
      | none => some st
      | some _ =>
        let st : JobResult :=
          if attempt < cfg.MaxRetries ∧ cfg.Retry then
            ⟨st.err, st.trace ++ [.sleep (wrapInt64 (Second * wrapInt64 (attempt + 1)))]⟩
          else st
        retryLoop cfg exec fuel (i + 1) st
    else some st

/-- The retry loop of one worker: `var err error` is `nil` before the loop and
the counter starts at 0. When `MaxRetries < MaxInt` the header ends the loop
after at most `MaxRetries + 1` iterations, which the fuel given here covers,
so this is what the loop leaves behind. When `MaxRetries = MaxInt` the counter
wraps around and the header never ends the loop: a worker whose attempts all
fail does not return, and there is nothing for this function to describe. -/
def runJob (cfg : Config) (exec : Nat → BuildRun) : JobResult :=
  (retryLoop cfg exec ((cfg.MaxRetries + 1).toNat + 1) 0 ⟨none, []⟩).getD ⟨none, []⟩

/-- The executor calls in a trace. -/
def calls (trace : List Event) : List BuildRun :=
  trace.filterMap (fun e => match e with | .call _ run => some run | .sleep _ => none)

/-- The backoff sleeps in a trace. -/
def sleeps (trace : List Event) : List Int :=
  trace.filterMap (fun e => match e with | .call _ _ => none | .sleep d => some d)

/-- The three slices `successful`, `skipped` and `errs` that the workers
append to under the mutex. -/
structure Aggregate where
  successful : List String
  skipped : List String
  errs : List String
deriving DecidableEq, Repr

/-- The critical section of a worker: classify its `err` and append to one
slice. -/
def record (agg : Aggregate) (t : BuildTarget) (err : Option BuildError) : Aggregate :=
  match err with
  | some .ErrSkipped => { agg with skipped := agg.skipped ++ [t.Name] }
  | some (.failed msg) => { agg with errs := agg.errs ++ ["[" ++ t.Name ++ "] " ++ msg] }
  | none => { agg with successful := agg.successful ++ [t.Name] }

/-- The worker of job `j` (the goroutine started for `targets[j]`): `world j
attempt` is the host as the call of `buildSingle` in that attempt finds it. -/
def worker (cfg : Config) (world : Nat → Nat → Host) (sourceFile outputDir binaryName : String)
    (j : Nat) (t : BuildTarget) : JobResult :=
  runJob cfg (fun attempt => buildSingle cfg (world j attempt) t sourceFile outputDir binaryName)

/-- What `buildWithProgress` leaves behind: the three slices after
`wg.Wait()` and the error it returns (`none` for `nil`). -/
structure Report where
  successful : List String
  skipped : List String
  errs : List String
  err : Option String
deriving DecidableEq, Repr

/-- The target of job `j` with the last value of `err` in its worker, which is
what the worker brings to the critical section; `none` when there is no
job `j`. -/
def finalOutcome (cfg : Config) (world : Nat → Nat → Host)
    (targets : List BuildTarget) (sourceFile outputDir binaryName : String) (j : Nat) :
    Option (BuildTarget × Option BuildError) :=
  match targets[j]? with
  | some t => some (t, (worker cfg world sourceFile outputDir binaryName j t).err)
  | none => none

/-- The slices after all workers are done. The workers run concurrently and
meet only in the critical section, so a run is determined by what each
worker observes (`world`) and by `order`, the job indices in the order in
which the workers enter the critical section. -/
def aggregate (cfg : Config) (world : Nat → Nat → Host) (order : List Nat)
    (targets : List BuildTarget) (sourceFile outputDir binaryName : String) : Aggregate :=
  order.foldl
    (fun agg j =>
      match finalOutcome cfg world targets sourceFile outputDir binaryName j with
      | some (t, err) => record agg t err
      | none => agg)
    ⟨[], [], []⟩

/-- The function `buildWithProgress`. -/
def buildWithProgress (cfg : Config) (world : Nat → Nat → Host) (order : List Nat)
    (targets : List BuildTarget) (sourceFile outputDir binaryName : String) : Report :=
  let agg := aggregate cfg world order targets sourceFile outputDir binaryName
  let err :=
    if agg.errs.length > 0 then
      some ("编译失败: " ++ toString agg.errs.length ++ "个目标出现错误")
    else none
  ⟨agg.successful, agg.skipped, agg.errs, err⟩

/-- A host where the discovery command fails. -/
def offlineHost : Host where
  GOOS := "android"
  GOARCH := "arm64"
  Environ := []
  distList := none
  mkdirAll := fun _ => none
  lookPath := fun _ => false
  stdin := none
  toLower := Char.toLower
  combinedOutput := fun _ => ("", none)

/-- An executor whose compiler invocation fails at every attempt. -/
def alwaysFails : Nat → BuildRun :=
  fun _ => ⟨some (.failed "exit status 1"), some ⟨"go", ["go", "build"], []⟩, ["build"]⟩

/-- A configuration with more retries than an `int64` duration has seconds. -/
def manyRetries : Config :=
  { MaxRetries := 9223372037 }

/-- A host where the discovery command works and reports four platforms. -/
def onlineHost : Host :=
  { offlineHost with
    distList := some "illumos/amd64\nlinux/amd64\nlinux/arm64\nwindows/arm64\n" }

/-- A host whose user answers `n` to the confirmation prompt. -/
def decliningHost : Host :=
  { offlineHost with stdin := some "n" }

/-- A host whose user answers `n` and whose output directory cannot be made. -/
def readOnlyHost : Host :=
  { offlineHost with stdin := some "n", mkdirAll := fun _ => some "read-only file system" }

/-- A host where every compiler invocation exits with a non-zero status. -/
def brokenCompilerHost : Host :=
  { offlineHost with combinedOutput := fun _ => ("main.go:1:1: syntax error", some "exit status 1") }

/-- A run of two jobs: the compiler works for job 0 and fails for every other
job. -/
def mixedWorld : Nat → Nat → Host :=
  fun j _ => if j = 0 then offlineHost else brokenCompilerHost

/-- A plain path element: not empty, without a slash, and neither `.` nor
`..`. -/
def isPlainElem (s : String) : Bool :=
  s ≠ "" && !Contains s '/' && s ≠ "." && s ≠ ".."

/-! ## Labels of the form os/arch -/

/-- A label is an os/arch pair when it has exactly one slash. -/
def isPair (p : String) : Bool :=
  p.data.count '/' = 1

/-- The target an os/arch label stands for: the text before the slash, the text
after it, and the label itself as the name. -/
def labelTarget (p : String) : BuildTarget :=
  ⟨⟨p.data.takeWhile (fun c => c ≠ '/')⟩, ⟨(p.data.dropWhile (fun c => c ≠ '/')).tail⟩, p⟩

/-! ## The report of the discovery tool -/

/-- The os/arch pairs the discovery tool reports: the lines of its output,
without the white space around them, that have the form os/arch. -/
def reportedPairs (output : String) : List String :=
  ((Split output '\n').map TrimSpace).filter isPair

/-- Append `w` to the last piece of a list of pieces. -/
def appendLast (w : List Char) : List (List Char) → List (List Char)
  | [] => []
  | [p] => [p ++ w]
  | p :: q :: ps => p :: appendLast w (q :: ps)

/-- The trimmed pieces that have the form os/arch. -/
def pairLines (pieces : List (List Char)) : List String :=
  (pieces.map (fun cs => TrimSpace ⟨cs⟩)).filter isPair

/-! ## Entries of the aggregate -/

/-- What a worker with this outcome appends to `successful`: the name of its
target when its last `err` is `nil`. -/
def successfulEntry : Option (BuildTarget × Option BuildError) → List String
  | some (t, none) => [t.Name]
  | _ => []

/-- What a worker with this outcome appends to `skipped`: the name of its
target when its last `err` is `ErrSkipped`. -/
def skippedEntry : Option (BuildTarget × Option BuildError) → List String
  | some (t, some .ErrSkipped) => [t.Name]
  | _ => []

/-- What a worker with this outcome appends to `errs`: the error with the name
of its target in front when its last `err` is a failure. -/
def failedEntry : Option (BuildTarget × Option BuildError) → List String
  | some (t, some (.failed msg)) => ["[" ++ t.Name ++ "] " ++ msg]
  | _ => []

/-- A run of three jobs: the compiler works for job 0, fails for the others,
and nobody answers the prompt. -/
def threeTargets : List BuildTarget :=
  [⟨"linux", "amd64", "linux/amd64"⟩, ⟨"linux", "amd64", "linux/amd64"⟩,
   ⟨"android", "arm64", "android/arm64"⟩]

/-! ## The embedding on sample inputs -/

theorem parsePlatforms_samples :
    (parsePlatforms {} offlineHost "desktop, server").length = 13
      ∧ (parsePlatforms {} offlineHost "all").length = 23
      ∧ parsePlatforms {} offlineHost " a/b ,c/d/e,linux" = [⟨"a", "b", "a/b"⟩]
      ∧ parsePlatforms { All := true } onlineHost "linux,plan9"
          = [⟨"linux", "amd64", "linux/amd64"⟩, ⟨"linux", "arm64", "linux/arm64"⟩] := by
  decide

theorem Join_samples :
    Join ["out", "linux/amd64", "../x"] = "out/linux/x"
      ∧ Join ["", "./x", "b"] = "x/b"
      ∧ Join ["/", "x/.", "b"] = "/x/b"
      ∧ Join ["../..", "x/..", "../b"] = "../../../b"
      ∧ Join ["", "", ""] = ""
      ∧ Clean "/../a//b/./c/.." = "/a/b"
      ∧ Clean "a/.." = "."
      ∧ Clean "" = "." := by
  decide

theorem buildSingle_samples :
    (buildSingle {} offlineHost ⟨"android", "arm64", "android/arm64"⟩
        "main.go" "./build" "main").err = some .ErrSkipped
      ∧ (buildSingle { Tags := "netgo" } offlineHost ⟨"windows", "amd64", "windows/amd64"⟩
        "main.go" "./build" "main").invoked
        = some ⟨"go", ["go", "build", "-tags", "netgo", "-o", "build/windows/amd64/main.exe",
              "main.go"],
            ["GOOS=windows", "GOARCH=amd64", "CGO_ENABLED=0"]⟩
      ∧ (buildSingle {} offlineHost ⟨"ios", "arm64", "ios/arm64"⟩
        "main.go" "./build" "main").err = some .ErrSkipped := by
  decide

theorem reportedPairs_samples :
    reportedPairs "\n linux/amd64 \r\nplan9\n a/b/c\n\nwindows/arm64\n\n"
        = ["linux/amd64", "windows/arm64"]
      ∧ parsePlatforms {} onlineHost "all"
        = [⟨"illumos", "amd64", "illumos/amd64"⟩, ⟨"linux", "amd64", "linux/amd64"⟩,
           ⟨"linux", "arm64", "linux/arm64"⟩, ⟨"windows", "arm64", "windows/arm64"⟩]
      ∧ wrapInt64 9223372036854775808 = -9223372036854775808
      ∧ wrapInt64 (-1) = -1 := by
  decide

/-! ## Splitting -/

theorem splitChars_ne_nil (sep : Char) (cs : List Char) : splitChars sep cs ≠ [] := by
  cases cs with
  | nil => simp [splitChars]
  | cons c cs =>
    unfold splitChars
    split
    · simp
    · split <;> simp

theorem splitChars_cons_ne (sep c : Char) (cs : List Char) (h : c ≠ sep) :
    splitChars sep (c :: cs)
      = (c :: (splitChars sep cs).headD []) :: (splitChars sep cs).tail := by
  rw [splitChars, if_neg h]
  cases hs : splitChars sep cs with
  | nil => exact absurd hs (splitChars_ne_nil sep cs)
  | cons p ps => simp

theorem splitChars_cons_eq (sep : Char) (cs : List Char) :
    splitChars sep (sep :: cs) = [] :: splitChars sep cs := by
  rw [splitChars, if_pos rfl]

theorem length_splitChars (sep : Char) (cs : List Char) :
    (splitChars sep cs).length = cs.count sep + 1 := by
  induction cs with
  | nil => simp [splitChars]
  | cons c cs ih =>
    by_cases h : c = sep
    · subst h
      rw [splitChars_cons_eq]; simp [ih]
    · rw [splitChars_cons_ne sep c cs h, List.count_cons_of_ne (Ne.symm h)]
      have := splitChars_ne_nil sep cs
      cases hs : splitChars sep cs with
      | nil => exact absurd hs this
      | cons p ps => rw [hs] at ih; simpa using ih

theorem splitChars_of_not_mem (sep : Char) (cs : List Char) (h : sep ∉ cs) :
    splitChars sep cs = [cs] := by
  induction cs with
  | nil => simp [splitChars]
  | cons c cs ih =>
    have hc : c ≠ sep := fun e => h (by simp [e])
    have hcs : sep ∉ cs := fun e => h (by simp [e])
    rw [splitChars_cons_ne sep c cs hc, ih hcs]; simp

theorem splitChars_append (sep : Char) (a b : List Char) (h : sep ∉ a) :
    splitChars sep (a ++ sep :: b) = a :: splitChars sep b := by
  induction a with
  | nil => simp [splitChars_cons_eq]
  | cons c a ih =>
    have hc : c ≠ sep := fun e => h (by simp [e])
    have ha : sep ∉ a := fun e => h (by simp [e])
    rw [List.cons_append, splitChars_cons_ne sep c _ hc, ih ha]; simp

theorem splitChars_append_sep (sep : Char) (a b : List Char) :
    splitChars sep (a ++ sep :: b) = splitChars sep a ++ splitChars sep b := by
  induction a with
  | nil => simp [splitChars_cons_eq, splitChars]
  | cons c a ih =>
    by_cases h : c = sep
    · subst h
      rw [List.cons_append, splitChars_cons_eq, splitChars_cons_eq, ih]
      simp
    · rw [List.cons_append, splitChars_cons_ne sep c _ h, splitChars_cons_ne sep c _ h, ih]
      cases hs : splitChars sep a with
      | nil => exact absurd hs (splitChars_ne_nil sep a)
      | cons p ps => simp

theorem intercalate_splitChars (sep : Char) (cs : List Char) :
    List.intercalate [sep] (splitChars sep cs) = cs := by
  induction cs with
  | nil => simp [splitChars, List.intercalate]
  | cons c cs ih =>
    by_cases h : c = sep
    · subst h
      rw [splitChars_cons_eq]
      cases hs : splitChars c cs with
      | nil => exact absurd hs (splitChars_ne_nil c cs)
      | cons p ps =>
        rw [hs] at ih
        simp only [List.intercalate, List.intersperse, List.flatten, List.nil_append] at ih ⊢
        simp [ih]
    · rw [splitChars_cons_ne sep c cs h]
      cases hs : splitChars sep cs with
      | nil => exact absurd hs (splitChars_ne_nil sep cs)
      | cons p ps =>
        rw [hs] at ih
        cases ps with
        | nil => simpa [List.intercalate] using ih
        | cons q qs =>
          simp only [List.intercalate, List.intersperse, List.flatten, List.headD, List.tail,
            List.cons_append] at ih ⊢
          rw [ih]

theorem not_mem_of_mem_splitChars (sep : Char) (cs p : List Char)
    (hp : p ∈ splitChars sep cs) : sep ∉ p := by
  induction cs generalizing p with
  | nil => simp [splitChars] at hp; simp [hp]
  | cons c cs ih =>
    by_cases h : c = sep
    · subst h
      rw [splitChars_cons_eq] at hp
      rcases List.mem_cons.1 hp with rfl | hp
      · simp
      · exact ih p hp
    · rw [splitChars_cons_ne sep c cs h] at hp
      cases hs : splitChars sep cs with
      | nil => exact absurd hs (splitChars_ne_nil sep cs)
      | cons q qs =>
        rw [hs] at hp ih
        simp only [List.headD, List.tail, List.mem_cons] at hp
        rcases hp with rfl | hp
        · have := ih q (by simp)
          intro hm
          rcases List.mem_cons.1 hm with e | e
          · exact h e.symm
          · exact this e
        · exact ih p (by simp [hp])

theorem splitChars_pair_iff (sep : Char) (cs a b : List Char) :
    splitChars sep cs = [a, b] ↔ cs = a ++ sep :: b ∧ sep ∉ a ∧ sep ∉ b := by
  constructor
  · intro h
    refine ⟨?_, ?_, ?_⟩
    · have := intercalate_splitChars sep cs
      rw [h] at this
      simpa [List.intercalate] using this.symm
    · exact not_mem_of_mem_splitChars sep cs a (by simp [h])
    · exact not_mem_of_mem_splitChars sep cs b (by simp [h])
  · rintro ⟨rfl, ha, hb⟩
    rw [splitChars_append sep a b ha, splitChars_of_not_mem sep b hb]

theorem takeWhile_ne_append (sep : Char) (a b : List Char) (ha : sep ∉ a) :
    (a ++ sep :: b).takeWhile (fun c => c ≠ sep) = a
      ∧ ((a ++ sep :: b).dropWhile (fun c => c ≠ sep)).tail = b := by
  induction a with
  | nil => simp
  | cons c a ih =>
    have hc : c ≠ sep := fun e => ha (by simp [e])
    have ha2 : sep ∉ a := fun e => ha (by simp [e])
    obtain ⟨h1, h2⟩ := ih ha2
    have hd : decide (c ≠ sep) = true := by simp [hc]
    rw [List.cons_append, List.takeWhile_cons, List.dropWhile_cons]
    simp only [hd, if_true]
    exact ⟨by rw [h1], h2⟩

theorem Split_eq_pair_iff (p os arch : String) :
    Split p '/' = [os, arch]
      ↔ p = os ++ "/" ++ arch ∧ '/' ∉ os.data ∧ '/' ∉ arch.data := by
  unfold Split
  constructor
  · intro h
    have h2 : splitChars '/' p.data = [os.data, arch.data] := by
      have := congrArg (List.map String.data) h
      simpa [Function.comp_def] using this
    obtain ⟨hp, ha, hb⟩ := (splitChars_pair_iff '/' p.data os.data arch.data).1 h2
    refine ⟨?_, ha, hb⟩
    apply String.ext
    simp [hp, String.data_append]
  · rintro ⟨rfl, ha, hb⟩
    have : (os ++ "/" ++ arch).data = os.data ++ '/' :: arch.data := by
      simp [String.data_append]
    rw [this, (splitChars_pair_iff '/' _ os.data arch.data).2 ⟨rfl, ha, hb⟩]
    simp

theorem Split_of_isPair (p : String) (h : isPair p = true) :
    Split p '/' = [(labelTarget p).GOOS, (labelTarget p).GOARCH] := by
  have hlen : (splitChars '/' p.data).length = 2 := by
    rw [length_splitChars]
    unfold isPair at h
    simp at h
    omega
  obtain ⟨a, b, hab⟩ : ∃ a b, splitChars '/' p.data = [a, b] := by
    match hs : splitChars '/' p.data, hlen with
    | [a, b], _ => exact ⟨a, b, rfl⟩
  obtain ⟨hp, ha, hb⟩ := (splitChars_pair_iff '/' p.data a b).1 hab
  obtain ⟨h1, h2⟩ := takeWhile_ne_append '/' a b ha
  unfold Split labelTarget
  rw [hab]
  simp only [hp, h1, h2, List.map_cons, List.map_nil]

theorem Split_length_of_not_isPair (p : String) (h : isPair p = false) :
    (Split p '/').length ≠ 2 := by
  unfold Split
  rw [List.length_map, length_splitChars]
  unfold isPair at h
  simp at h
  omega

/-! ## The resolver concatenates -/

theorem appendLabels_acc (targets : List BuildTarget) (ps : List String) :
    appendLabels targets ps = targets ++ appendLabels [] ps := by
  induction ps generalizing targets with
  | nil => simp [appendLabels]
  | cons p rest ih =>
    unfold appendLabels
    split
    · rw [ih (targets ++ _), ih ([] ++ _)]; simp
    · exact ih targets

theorem parseToken_acc (cfg : Config) (host : Host) (targets : List BuildTarget) (raw : String) :
    parseToken cfg host targets raw = targets ++ parseToken cfg host [] raw := by
  unfold parseToken
  simp only []
  split
  · exact appendLabels_acc _ _
  · split
    · exact appendLabels_acc _ _
    · split
      · split <;> simp
      · split
        · split
          · simp
          · split <;> simp
        · split
          · simp
          · split <;> simp

theorem foldl_parseToken (cfg : Config) (host : Host) (toks : List String)
    (targets : List BuildTarget) :
    toks.foldl (parseToken cfg host) targets
      = targets ++ toks.flatMap (fun raw => parseToken cfg host [] raw) := by
  induction toks generalizing targets with
  | nil => simp
  | cons raw rest ih =>
    rw [List.foldl_cons, ih, parseToken_acc]
    simp [List.flatMap_cons]

theorem parsePlatforms_eq_flatMap (cfg : Config) (host : Host) (platformStr : String) :
    parsePlatforms cfg host platformStr
      = (Split platformStr ',').flatMap (fun raw => parseToken cfg host [] raw) := by
  unfold parsePlatforms
  rw [foldl_parseToken]; simp

/-- C1, as the code has it: `parsePlatforms` returns the token-by-token
concatenation itself and removes nothing from it, so a target occurs in the
result as many times as the tokens produce it, in the order of the
concatenation. -/
theorem parsePlatforms_concatenates (cfg : Config) (host : Host) (platformStr : String) :
    parsePlatforms cfg host platformStr
        = (Split platformStr ',').flatMap (fun raw => parseToken cfg host [] raw)
      ∧ ∀ t : BuildTarget,
          (parsePlatforms cfg host platformStr).count t
            = ((Split platformStr ',').map
                (fun raw => (parseToken cfg host [] raw).count t)).sum := by
  have h := parsePlatforms_eq_flatMap cfg host platformStr
  refine ⟨h, fun t => ?_⟩
  rw [h]
  generalize Split platformStr ',' = toks
  induction toks with
  | nil => simp
  | cons raw rest ih => simp [List.flatMap_cons, List.count_append, ih]

/-- C1 fails as stated: for `"desktop,server"` the pair linux/amd64, which is
in both groups, is returned twice (and the pairs returned are not
duplicate-free). -/
theorem parsePlatforms_returns_duplicates :
    ((parsePlatforms {} offlineHost "desktop,server").map
        (fun t => (t.GOOS, t.GOARCH))).count ("linux", "amd64") = 2
      ∧ ¬ ((parsePlatforms {} offlineHost "desktop,server").map
        (fun t => (t.GOOS, t.GOARCH))).Nodup := by
  decide


/-! ## The retry loop -/

theorem wrapInt64_of_range (x : Int) (h1 : -9223372036854775808 ≤ x)
    (h2 : x ≤ 9223372036854775807) : wrapInt64 x = x := by
  unfold wrapInt64
  omega

theorem wrapInt64_le_MaxInt (x : Int) : wrapInt64 x ≤ MaxInt := by
  unfold wrapInt64 MaxInt
  omega

theorem retryLoop_exit (cfg : Config) (exec : Nat → BuildRun) (fuel i : Nat) (st : JobResult)
    (h : ¬ wrapInt64 i ≤ cfg.MaxRetries) :
    retryLoop cfg exec (fuel + 1) i st = some st := by
  rw [retryLoop]
  simp only [h, if_false]

theorem retryLoop_step_none (cfg : Config) (exec : Nat → BuildRun) (fuel i : Nat)
    (st : JobResult) (h : wrapInt64 i ≤ cfg.MaxRetries) (hk : (exec i).err = none) :
    retryLoop cfg exec (fuel + 1) i st = some ⟨none, st.trace ++ [Event.call i (exec i)]⟩ := by
  rw [retryLoop]
  simp only [h, if_true, hk]

theorem retryLoop_step_some (cfg : Config) (exec : Nat → BuildRun) (fuel i : Nat)
    (st : JobResult) (e : BuildError) (h : wrapInt64 i ≤ cfg.MaxRetries)
    (hk : (exec i).err = some e) :
    retryLoop cfg exec (fuel + 1) i st
      = retryLoop cfg exec fuel (i + 1)
          ⟨some e, st.trace ++ Event.call i (exec i) ::
            (if wrapInt64 i < cfg.MaxRetries ∧ cfg.Retry then
              [Event.sleep (wrapInt64 (Second * wrapInt64 (wrapInt64 i + 1)))] else [])⟩ := by
  rw [retryLoop]
  simp only [h, if_true, hk]
  split <;> simp

/-- When `MaxRetries < MaxInt` the header ends the loop: from iteration `i` on,
`MaxRetries + 1 - i` iterations and one more look at the header are enough,
and more fuel does not change the result. -/
theorem retryLoop_fuel (cfg : Config) (exec : Nat → BuildRun) (hM : cfg.MaxRetries < MaxInt)
    (n i fuel : Nat) (st : JobResult) (hi : (i : Int) + n = cfg.MaxRetries + 1)
    (hf : n < fuel) :
    ∃ r, retryLoop cfg exec fuel i st = some r ∧ retryLoop cfg exec (n + 1) i st = some r := by
  unfold MaxInt at hM
  induction n generalizing i fuel st with
  | zero =>
    obtain ⟨f, rfl⟩ : ∃ f, fuel = f + 1 := ⟨fuel - 1, by omega⟩
    have hw : wrapInt64 i = i := wrapInt64_of_range _ (by omega) (by omega)
    have hc : ¬ wrapInt64 i ≤ cfg.MaxRetries := by rw [hw]; omega
    exact ⟨st, retryLoop_exit cfg exec f i st hc, retryLoop_exit cfg exec 0 i st hc⟩
  | succ n ih =>
    obtain ⟨f, rfl⟩ : ∃ f, fuel = f + 1 := ⟨fuel - 1, by omega⟩
    have hw : wrapInt64 i = i := wrapInt64_of_range _ (by omega) (by omega)
    have hc : wrapInt64 i ≤ cfg.MaxRetries := by rw [hw]; omega
    cases hk : (exec i).err with
    | none =>
      exact ⟨_, retryLoop_step_none cfg exec f i st hc hk,
        retryLoop_step_none cfg exec (n + 1) i st hc hk⟩
    | some e =>
      rw [retryLoop_step_some cfg exec f i st e hc hk,
        retryLoop_step_some cfg exec (n + 1) i st e hc hk]
      exact ih (i + 1) f _ (by push_cast; omega) (by omega)

/-- The function `runJob` is the result of the retry loop whenever
`MaxRetries < MaxInt`, with any fuel above `MaxRetries + 1`. -/
theorem retryLoop_eq_runJob (cfg : Config) (exec : Nat → BuildRun)
    (hM : cfg.MaxRetries < MaxInt) (fuel : Nat) (hf : (cfg.MaxRetries + 1).toNat < fuel) :
    retryLoop cfg exec fuel 0 ⟨none, []⟩ = some (runJob cfg exec) := by
  by_cases hneg : cfg.MaxRetries < 0
  · obtain ⟨f, rfl⟩ : ∃ f, fuel = f + 1 := ⟨fuel - 1, by omega⟩
    have hw : wrapInt64 ((0 : Nat) : Int) = 0 := by decide
    have hc : ¬ wrapInt64 ((0 : Nat) : Int) ≤ cfg.MaxRetries := by rw [hw]; omega
    unfold runJob
    rw [retryLoop_exit cfg exec f 0 _ hc, retryLoop_exit cfg exec _ 0 _ hc]
    rfl
  · obtain ⟨r, h1, h2⟩ := retryLoop_fuel cfg exec hM (cfg.MaxRetries + 1).toNat 0 fuel ⟨none, []⟩
      (by push_cast; omega) hf
    unfold runJob
    rw [h1, h2]
    rfl

/-- When `MaxRetries = MaxInt` the header never ends the loop: if every attempt
ends in an error, no amount of fuel is enough. -/
theorem retryLoop_never_returns (cfg : Config) (exec : Nat → BuildRun)
    (h : ∀ k, (exec k).err ≠ none) (hM : cfg.MaxRetries = MaxInt)
    (fuel i : Nat) (st : JobResult) :
    retryLoop cfg exec fuel i st = none := by
  induction fuel generalizing i st with
  | zero => rfl
  | succ f ih =>
    have hc : wrapInt64 i ≤ cfg.MaxRetries := by rw [hM]; exact wrapInt64_le_MaxInt _
    cases hk : (exec i).err with
    | none => exact absurd hk (h i)
    | some e =>
      rw [retryLoop_step_some cfg exec f i st e hc hk]
      exact ih _ _

theorem retryLoop_never_nil (cfg : Config) (exec : Nat → BuildRun)
    (h : ∀ k, (exec k).err ≠ none) (hM : cfg.MaxRetries < MaxInt)
    (n i : Nat) (st : JobResult) (hi : (i : Int) + n = cfg.MaxRetries + 1) :
    ∃ r, retryLoop cfg exec (n + 1) i st = some r
      ∧ r.trace = st.trace ++ (List.range' i n).flatMap (fun k =>
            Event.call k (exec k) ::
              (if (k : Int) < cfg.MaxRetries ∧ cfg.Retry then
                [Event.sleep (wrapInt64 (Second * ((k : Int) + 1)))] else []))
      ∧ r.err = ((List.range' i n).getLast?.map (fun k => (exec k).err)).getD st.err := by
  unfold MaxInt at hM
  induction n generalizing i st with
  | zero =>
    have hw : wrapInt64 i = i := wrapInt64_of_range _ (by omega) (by omega)
    have hc : ¬ wrapInt64 i ≤ cfg.MaxRetries := by rw [hw]; omega
    exact ⟨st, retryLoop_exit cfg exec 0 i st hc, by simp, by simp⟩
  | succ n ih =>
    have hw : wrapInt64 i = i := wrapInt64_of_range _ (by omega) (by omega)
    have hc : wrapInt64 i ≤ cfg.MaxRetries := by rw [hw]; omega
    cases hk : (exec i).err with
    | none => exact absurd hk (h i)
    | some e =>
      obtain ⟨r, hr, htrace, herr⟩ := ih (i + 1)
        ⟨some e, st.trace ++ Event.call i (exec i) ::
            (if wrapInt64 i < cfg.MaxRetries ∧ cfg.Retry then
              [Event.sleep (wrapInt64 (Second * wrapInt64 (wrapInt64 i + 1)))] else [])⟩
        (by push_cast; omega)
      refine ⟨r, ?_, ?_, ?_⟩
      · rw [retryLoop_step_some cfg exec (n + 1) i st e hc hk]
        exact hr
      · rw [htrace, List.range'_succ, List.flatMap_cons, hw]
        by_cases hlt : (i : Int) < cfg.MaxRetries ∧ cfg.Retry = true
        · have hw2 : wrapInt64 ((i : Int) + 1) = (i : Int) + 1 :=
            wrapInt64_of_range _ (by omega) (by omega)
          simp only [hlt, and_self, if_true, hw2]
          simp
        · simp only [hlt, if_false]
          simp
      · rw [herr, List.range'_succ]
        cases n with
        | zero => simp [hk]
        | succ m =>
          rw [List.range'_succ, List.getLast?_cons_cons]
          have hx : ∃ x, ((i + 1) :: List.range' (i + 1 + 1) m).getLast? = some x :=
            ⟨_, List.getLast?_eq_getLast _ (by simp)⟩
          obtain ⟨x, hx⟩ := hx
          simp [hx]

/-- The worker of a target whose attempts all end in an error, for
`0 <= MaxRetries < MaxInt`: its events and its last `err`. -/
theorem runJob_never_nil (cfg : Config) (exec : Nat → BuildRun)
    (h : ∀ k, (exec k).err ≠ none) (hMax : 0 ≤ cfg.MaxRetries) (hM : cfg.MaxRetries < MaxInt) :
    (runJob cfg exec).trace
        = (List.range (cfg.MaxRetries.toNat + 1)).flatMap (fun k =>
            Event.call k (exec k) ::
              (if (k : Int) < cfg.MaxRetries ∧ cfg.Retry then
                [Event.sleep (wrapInt64 (Second * ((k : Int) + 1)))] else []))
      ∧ (runJob cfg exec).err = (exec cfg.MaxRetries.toNat).err := by
  have hn : (cfg.MaxRetries + 1).toNat = cfg.MaxRetries.toNat + 1 := by omega
  obtain ⟨r, hr, htrace, herr⟩ := retryLoop_never_nil cfg exec h hM
    (cfg.MaxRetries.toNat + 1) 0 ⟨none, []⟩ (by push_cast; omega)
  have hrun : runJob cfg exec = r := by
    unfold runJob
    rw [hn, hr]
    rfl
  rw [hrun, htrace, herr, List.range_eq_range']
  refine ⟨by simp, ?_⟩
  rw [← List.range_eq_range', List.range_succ]
  simp

theorem calls_flatMap_step (exec : Nat → BuildRun) (rest : Nat → List Event)
    (hrest : ∀ k, calls (rest k) = []) (l : List Nat) :
    calls (l.flatMap (fun k => Event.call k (exec k) :: rest k)) = l.map exec := by
  induction l with
  | nil => simp [calls]
  | cons k tl ih =>
    have hk := hrest k
    unfold calls at ih hk ⊢
    rw [List.flatMap_cons, List.filterMap_append, ih, List.filterMap_cons]
    simp [hk]

theorem calls_flatMap_backoff (exec : Nat → BuildRun) (d : Nat → Int) (l : List Nat) :
    calls (l.flatMap (fun k => [Event.call k (exec k), Event.sleep (d k)])) = l.map exec
      ∧ sleeps (l.flatMap (fun k => [Event.call k (exec k), Event.sleep (d k)])) = l.map d := by
  induction l with
  | nil => simp [calls, sleeps]
  | cons k rest ih =>
    obtain ⟨ih1, ih2⟩ := ih
    unfold calls sleeps at *
    simp [List.flatMap_cons, List.filterMap_cons, ih1, ih2]

/-- Whatever `Retry` says, a worker whose every attempt ends in an error (a
failure or `ErrSkipped`) runs the loop to its end: attempt `0` to attempt
`MaxRetries`. -/
theorem calls_of_never_nil (cfg : Config) (exec : Nat → BuildRun)
    (h : ∀ k, (exec k).err ≠ none) (hM : cfg.MaxRetries < MaxInt) :
    calls (runJob cfg exec).trace = (List.range (cfg.MaxRetries + 1).toNat).map exec := by
  by_cases hneg : cfg.MaxRetries < 0
  · have hn : (cfg.MaxRetries + 1).toNat = 0 := by omega
    have hrun := retryLoop_eq_runJob cfg exec hM 1 (by omega)
    have hw : wrapInt64 ((0 : Nat) : Int) = 0 := by decide
    have hc : ¬ wrapInt64 ((0 : Nat) : Int) ≤ cfg.MaxRetries := by rw [hw]; omega
    rw [retryLoop_exit cfg exec 0 0 _ hc] at hrun
    rw [← Option.some.inj hrun, hn]
    rfl
  · have hn : (cfg.MaxRetries + 1).toNat = cfg.MaxRetries.toNat + 1 := by omega
    rw [(runJob_never_nil cfg exec h (by omega) hM).1, hn]
    apply calls_flatMap_step
    intro k
    split <;> rfl

/-- The worker of a target whose attempts all end in an error, with `Retry` set
and `0 <= MaxRetries < MaxInt`: a sleep of the wrapped delay after every
attempt but the last. -/
theorem runJob_retry_trace (cfg : Config) (exec : Nat → BuildRun)
    (h : ∀ k, (exec k).err ≠ none) (hRetry : cfg.Retry = true)
    (hMax : 0 ≤ cfg.MaxRetries) (hM : cfg.MaxRetries < MaxInt) :
    (runJob cfg exec).trace
        = (List.range cfg.MaxRetries.toNat).flatMap
            (fun k : Nat =>
              [Event.call k (exec k), Event.sleep (wrapInt64 (Second * ((k : Int) + 1)))])
          ++ [Event.call cfg.MaxRetries.toNat (exec cfg.MaxRetries.toNat)]
      ∧ sleeps (runJob cfg exec).trace
          = (List.range cfg.MaxRetries.toNat).map
              (fun k : Nat => wrapInt64 (Second * ((k : Int) + 1))) := by
  have htrace : (runJob cfg exec).trace
        = (List.range cfg.MaxRetries.toNat).flatMap
            (fun k : Nat =>
              [Event.call k (exec k), Event.sleep (wrapInt64 (Second * ((k : Int) + 1)))])
          ++ [Event.call cfg.MaxRetries.toNat (exec cfg.MaxRetries.toNat)] := by
    rw [(runJob_never_nil cfg exec h hMax hM).1, List.range_succ, List.flatMap_append]
    have hlast : ¬ ((cfg.MaxRetries.toNat : Int) < cfg.MaxRetries) := by omega
    simp only [List.flatMap_cons, List.flatMap_nil, List.append_nil, hlast,
      false_and, if_false]
    congr 1
    apply List.flatMap_congr
    intro k hk
    have hlt : (k : Int) < cfg.MaxRetries := by
      have := List.mem_range.1 hk
      omega
    simp [hlt, hRetry]
  refine ⟨htrace, ?_⟩
  rw [htrace, sleeps, List.filterMap_append]
  have := (calls_flatMap_backoff exec (fun k : Nat => wrapInt64 (Second * ((k : Int) + 1)))
    (List.range cfg.MaxRetries.toNat)).2
  unfold sleeps at this
  rw [this]
  simp

/-- C4, as the code has it: with `Retry` set and `0 <= MaxRetries <= 9223372036`
(the largest count of seconds an `int64` duration holds), the retry loop of
a target whose every attempt fails returns, after `MaxRetries + 1` calls of
the executor; the worker sleeps `k + 1` seconds after failed attempt `k` for
`k = 0 .. MaxRetries - 1`, so the delays increase strictly, and nothing
follows the last attempt. -/
theorem retry_enabled_backoff (cfg : Config) (exec : Nat → BuildRun)
    (hRetry : cfg.Retry = true) (hMax : 0 ≤ cfg.MaxRetries)
    (hBound : cfg.MaxRetries ≤ 9223372036)
    (hFail : ∀ k, ∃ msg, (exec k).err = some (BuildError.failed msg)) :
    (∀ fuel, cfg.MaxRetries.toNat + 1 < fuel →
        retryLoop cfg exec fuel 0 ⟨none, []⟩ = some (runJob cfg exec))
      ∧ (runJob cfg exec).trace
        = (List.range cfg.MaxRetries.toNat).flatMap
            (fun k : Nat => [Event.call k (exec k), Event.sleep (Second * ((k : Int) + 1))])
          ++ [Event.call cfg.MaxRetries.toNat (exec cfg.MaxRetries.toNat)]
      ∧ calls (runJob cfg exec).trace = (List.range (cfg.MaxRetries.toNat + 1)).map exec
      ∧ ((calls (runJob cfg exec).trace).length : Int) = cfg.MaxRetries + 1
      ∧ sleeps (runJob cfg exec).trace
          = (List.range cfg.MaxRetries.toNat).map (fun k : Nat => Second * ((k : Int) + 1))
      ∧ (sleeps (runJob cfg exec).trace).Pairwise (fun a b => a < b)
      ∧ (runJob cfg exec).trace.getLast?
          = some (Event.call cfg.MaxRetries.toNat (exec cfg.MaxRetries.toNat))
      ∧ (runJob cfg exec).err = (exec cfg.MaxRetries.toNat).err := by
  have hne : ∀ k, (exec k).err ≠ none := by
    intro k; obtain ⟨msg, hm⟩ := hFail k; simp [hm]
  have hM : cfg.MaxRetries < MaxInt := by unfold MaxInt; omega
  have hdelay : ∀ k ∈ List.range cfg.MaxRetries.toNat,
      wrapInt64 (Second * ((k : Int) + 1)) = Second * ((k : Int) + 1) := by
    intro k hk
    have := List.mem_range.1 hk
    apply wrapInt64_of_range <;> unfold Second <;> omega
  have htrace : (runJob cfg exec).trace
        = (List.range cfg.MaxRetries.toNat).flatMap
            (fun k : Nat => [Event.call k (exec k), Event.sleep (Second * ((k : Int) + 1))])
          ++ [Event.call cfg.MaxRetries.toNat (exec cfg.MaxRetries.toNat)] := by
    have hfm : (List.range cfg.MaxRetries.toNat).flatMap
          (fun k : Nat =>
            [Event.call k (exec k), Event.sleep (wrapInt64 (Second * ((k : Int) + 1)))])
        = (List.range cfg.MaxRetries.toNat).flatMap
          (fun k : Nat => [Event.call k (exec k), Event.sleep (Second * ((k : Int) + 1))]) := by
      apply List.flatMap_congr
      intro k hk
      rw [hdelay k hk]
    rw [(runJob_retry_trace cfg exec hne hRetry hMax hM).1, hfm]
  have hcalls : calls (runJob cfg exec).trace = (List.range (cfg.MaxRetries.toNat + 1)).map exec := by
    rw [htrace, calls, List.filterMap_append]
    have := (calls_flatMap_backoff exec (fun k : Nat => Second * ((k : Int) + 1))
      (List.range cfg.MaxRetries.toNat)).1
    unfold calls at this
    rw [this, List.range_succ]
    simp
  have hsleeps : sleeps (runJob cfg exec).trace
      = (List.range cfg.MaxRetries.toNat).map (fun k : Nat => Second * ((k : Int) + 1)) := by
    rw [(runJob_retry_trace cfg exec hne hRetry hMax hM).2]
    apply List.map_congr_left
    intro k hk
    exact hdelay k hk
  refine ⟨?_, htrace, hcalls, ?_, hsleeps, ?_, ?_, ?_⟩
  · intro fuel hf
    exact retryLoop_eq_runJob cfg exec hM fuel (by omega)
  · rw [hcalls]; simp; omega
  · rw [hsleeps, List.pairwise_map]
    refine (List.pairwise_lt_range _).imp ?_
    intro a b hab
    have : (a : Int) < b := by exact_mod_cast hab
    unfold Second
    omega
  · rw [htrace]; simp
  · exact (runJob_never_nil cfg exec hne hMax hM).2

theorem retry_enabled_backoff_witness :
    (0 : Int) ≤ 2 ∧ (2 : Int) ≤ 9223372036
      ∧ sleeps (runJob {} alwaysFails).trace = [1000000000, 2000000000]
      ∧ (calls (runJob {} alwaysFails).trace).length = 3 :=
  ⟨by decide, by decide,
   by
    have h := (retry_enabled_backoff {} alwaysFails rfl (by decide) (by decide)
      (fun _ => ⟨"exit status 1", rfl⟩)).2.2.2.2.1
    rw [h]; decide,
   by decide⟩

/-- C4 fails as stated: with `MaxRetries = 9223372037` (and `Retry` set) the
loop still returns for a target whose every attempt fails, but the delay
computed after failed attempt 9223372036 is not 9223372037 seconds: the
`int64` product wraps around to a negative duration, below the 9223372036
seconds slept after the attempt before it. -/
theorem backoff_delay_wraps :
    retryLoop manyRetries alwaysFails 9223372039 0 ⟨none, []⟩
        = some (runJob manyRetries alwaysFails)
      ∧ (sleeps (runJob manyRetries alwaysFails).trace)[9223372035]?
        = some (9223372036 * Second)
      ∧ (sleeps (runJob manyRetries alwaysFails).trace)[9223372036]?
        = some (-9223372036709551616) := by
  have hne : ∀ k, (alwaysFails k).err ≠ none := fun k => by simp [alwaysFails]
  have hval : manyRetries.MaxRetries = 9223372037 := rfl
  have hM : manyRetries.MaxRetries < MaxInt := by rw [hval]; decide
  have hn : manyRetries.MaxRetries.toNat = 9223372037 := by rw [hval]; omega
  refine ⟨retryLoop_eq_runJob manyRetries alwaysFails hM _ (by rw [hval]; omega), ?_, ?_⟩
  · rw [(runJob_retry_trace manyRetries alwaysFails hne rfl (by rw [hval]; decide) hM).2, hn,
      List.getElem?_map, List.getElem?_range (by decide)]
    decide
  · rw [(runJob_retry_trace manyRetries alwaysFails hne rfl (by rw [hval]; decide) hM).2, hn,
      List.getElem?_map, List.getElem?_range (by decide)]
    decide

/-- C2 fails on the code: with the defaults `Retry = true`, `MaxRetries = 2`
and `--skip-cgo`, the worker of android/arm64 calls `buildSingle` three times
and sleeps one and two seconds in between, though every call returns
`ErrSkipped` (and none of them invokes the compiler). -/
theorem skipped_target_is_retried :
    calls (worker { SkipCGO := true } (fun _ _ => offlineHost) "main.go" "./build" "main" 0
        ⟨"android", "arm64", "android/arm64"⟩).trace
        = [⟨some .ErrSkipped, none, []⟩, ⟨some .ErrSkipped, none, []⟩,
           ⟨some .ErrSkipped, none, []⟩]
      ∧ sleeps (worker { SkipCGO := true } (fun _ _ => offlineHost) "main.go" "./build" "main" 0
        ⟨"android", "arm64", "android/arm64"⟩).trace
        = [1 * Second, 2 * Second] := by
  decide

/-- C3 fails on the code: with `--retry=false` and the default `MaxRetries = 2`,
the worker of a target whose compilation always fails calls `buildSingle`
three times, without sleeping in between. -/
theorem retry_disabled_still_repeats :
    (calls (worker { Retry := false } (fun _ _ => brokenCompilerHost) "main.go" "./build" "main" 0
        ⟨"linux", "amd64", "linux/amd64"⟩).trace).length = 3
      ∧ (calls (worker { Retry := false } (fun _ _ => brokenCompilerHost) "main.go" "./build"
          "main" 0 ⟨"linux", "amd64", "linux/amd64"⟩).trace).map (fun run => run.invoked.isSome)
        = [true, true, true]
      ∧ sleeps (worker { Retry := false } (fun _ _ => brokenCompilerHost) "main.go" "./build"
          "main" 0 ⟨"linux", "amd64", "linux/amd64"⟩).trace = [] := by
  decide


/-! ## The aggregate -/

theorem record_successful (agg : Aggregate) (t : BuildTarget) (err : Option BuildError) :
    (record agg t err).successful
      = agg.successful ++ (if err = none then [t.Name] else []) := by
  cases err with
  | none => simp [record]
  | some e => cases e <;> simp [record]

theorem record_skipped (agg : Aggregate) (t : BuildTarget) (err : Option BuildError) :
    (record agg t err).skipped
      = agg.skipped ++ (if err = some .ErrSkipped then [t.Name] else []) := by
  cases err with
  | none => simp [record]
  | some e => cases e <;> simp [record]

theorem record_errs (agg : Aggregate) (t : BuildTarget) (err : Option BuildError) :
    (record agg t err).errs
      = agg.errs ++ (match err with
          | some (.failed msg) => ["[" ++ t.Name ++ "] " ++ msg]
          | _ => []) := by
  cases err with
  | none => simp [record]
  | some e => cases e <;> simp [record]

theorem foldl_record_errs (f : Nat → Option (BuildTarget × Option BuildError))
    (order : List Nat) (init : Aggregate) :
    (order.foldl (fun agg j =>
        match f j with
        | some (t, err) => record agg t err
        | none => agg) init).errs
      = init.errs ++ order.flatMap (fun j =>
          match f j with
          | some (t, some (.failed msg)) => ["[" ++ t.Name ++ "] " ++ msg]
          | _ => []) := by
  induction order generalizing init with
  | nil => simp
  | cons j rest ih =>
    rw [List.foldl_cons, ih, List.flatMap_cons]
    rcases hf : f j with _ | ⟨t, err⟩
    · simp
    · simp only [record_errs, List.append_assoc]
      rcases err with _ | e
      · simp
      · cases e <;> simp


theorem foldl_record_successful (f : Nat → Option (BuildTarget × Option BuildError))
    (order : List Nat) (init : Aggregate) :
    (order.foldl (fun agg j =>
        match f j with
        | some (t, err) => record agg t err
        | none => agg) init).successful
      = init.successful ++ order.flatMap (fun j =>
          match f j with
          | some (t, none) => [t.Name]
          | _ => []) := by
  induction order generalizing init with
  | nil => simp
  | cons j rest ih =>
    rw [List.foldl_cons, ih, List.flatMap_cons]
    rcases hf : f j with _ | ⟨t, err⟩
    · simp
    · simp only [record_successful, List.append_assoc]
      rcases err with _ | e
      · simp
      · cases e <;> simp

theorem foldl_record_skipped (f : Nat → Option (BuildTarget × Option BuildError))
    (order : List Nat) (init : Aggregate) :
    (order.foldl (fun agg j =>
        match f j with
        | some (t, err) => record agg t err
        | none => agg) init).skipped
      = init.skipped ++ order.flatMap (fun j =>
          match f j with
          | some (t, some .ErrSkipped) => [t.Name]
          | _ => []) := by
  induction order generalizing init with
  | nil => simp
  | cons j rest ih =>
    rw [List.foldl_cons, ih, List.flatMap_cons]
    rcases hf : f j with _ | ⟨t, err⟩
    · simp
    · simp only [record_skipped, List.append_assoc]
      rcases err with _ | e
      · simp
      · cases e <;> simp

theorem finalOutcome_lt (cfg : Config) (world : Nat → Nat → Host)
    (targets : List BuildTarget) (sourceFile outputDir binaryName : String) (j : Nat)
    (x : BuildTarget × Option BuildError)
    (h : finalOutcome cfg world targets sourceFile outputDir binaryName j = some x) :
    j < targets.length := by
  unfold finalOutcome at h
  cases hj : targets[j]? with
  | none => simp [hj] at h
  | some t => exact (List.getElem?_eq_some.1 hj).1

/-- C5: `buildWithProgress` returns an error exactly when the last `err` of some
worker is a failure (not `nil`, not `ErrSkipped`); when every worker ends in
success or `ErrSkipped` it returns `nil`; and over two targets of which the
first ends in success and the second in a failure, the first is recorded as
successful, the second as failed, and an error is returned. `order` is the
order in which the workers reach the critical section. -/
theorem buildWithProgress_error_iff_failed (cfg : Config) (world : Nat → Nat → Host)
    (order : List Nat) (targets : List BuildTarget) (sourceFile outputDir binaryName : String)
    (hOrder : order.Perm (List.range targets.length)) :
    ((buildWithProgress cfg world order targets sourceFile outputDir binaryName).err ≠ none
        ↔ ∃ j t msg, finalOutcome cfg world targets sourceFile outputDir binaryName j
            = some (t, some (BuildError.failed msg)))
      ∧ ((∀ j t err, finalOutcome cfg world targets sourceFile outputDir binaryName j
              = some (t, err) → err = none ∨ err = some BuildError.ErrSkipped)
          → (buildWithProgress cfg world order targets sourceFile outputDir binaryName).err
              = none)
      ∧ (∀ T1 T2 msg, targets = [T1, T2]
          → finalOutcome cfg world targets sourceFile outputDir binaryName 0 = some (T1, none)
          → finalOutcome cfg world targets sourceFile outputDir binaryName 1
              = some (T2, some (BuildError.failed msg))
          → (buildWithProgress cfg world order targets sourceFile outputDir binaryName).successful
              = [T1.Name]
            ∧ (buildWithProgress cfg world order targets sourceFile outputDir binaryName).skipped
              = []
            ∧ (buildWithProgress cfg world order targets sourceFile outputDir binaryName).errs
              = ["[" ++ T2.Name ++ "] " ++ msg]
            ∧ (buildWithProgress cfg world order targets sourceFile outputDir binaryName).err
              ≠ none) := by
  have hmem : ∀ j, j < targets.length → j ∈ order := fun j hj =>
    hOrder.mem_iff.2 (List.mem_range.2 hj)
  have hiff : (buildWithProgress cfg world order targets sourceFile outputDir binaryName).err ≠ none
        ↔ ∃ j t msg, finalOutcome cfg world targets sourceFile outputDir binaryName j
            = some (t, some (BuildError.failed msg)) := by
    unfold buildWithProgress aggregate
    simp only [foldl_record_errs, List.nil_append]
    constructor
    · intro h
      have hne : order.flatMap (fun j =>
          match finalOutcome cfg world targets sourceFile outputDir binaryName j with
          | some (t, some (.failed msg)) => ["[" ++ t.Name ++ "] " ++ msg]
          | _ => []) ≠ [] := by
        intro hnil
        rw [hnil] at h
        simp at h
      rw [Ne, List.flatMap_eq_nil_iff] at hne
      push_neg at hne
      obtain ⟨j, _, hj⟩ := hne
      rcases hf : finalOutcome cfg world targets sourceFile outputDir binaryName j
        with _ | ⟨t, _ | _ | msg⟩
      · simp [hf] at hj
      · simp [hf] at hj
      · simp [hf] at hj
      · exact ⟨j, t, msg, hf⟩
    · rintro ⟨j, t, msg, hj⟩
      have hjo : j ∈ order := hmem j (finalOutcome_lt _ _ _ _ _ _ _ _ hj)
      have hpos : 0 < (order.flatMap (fun j =>
          match finalOutcome cfg world targets sourceFile outputDir binaryName j with
          | some (t, some (.failed msg)) => ["[" ++ t.Name ++ "] " ++ msg]
          | _ => [])).length := by
        apply List.length_pos.2
        rw [Ne, List.flatMap_eq_nil_iff]
        push_neg
        exact ⟨j, hjo, by simp [hj]⟩
      rw [if_pos hpos]
      exact Option.some_ne_none _
  refine ⟨hiff, ?_, ?_⟩
  · intro hall
    by_contra hne
    obtain ⟨j, t, msg, hj⟩ := hiff.1 hne
    rcases hall j t _ hj with h | h <;> simp at h
  · intro T1 T2 msg hT h0 h1
    have hrange : List.range targets.length = [0, 1] := by rw [hT]; rfl
    rw [hrange] at hOrder
    refine ⟨?_, ?_, ?_, hiff.2 ⟨1, T2, msg, h1⟩⟩
    · unfold buildWithProgress aggregate
      simp only [foldl_record_successful, List.nil_append]
      have hp := hOrder.flatMap_right (fun j =>
          match finalOutcome cfg world targets sourceFile outputDir binaryName j with
          | some (t, none) => [t.Name]
          | _ => [])
      simp only [List.flatMap_cons, List.flatMap_nil, h0, h1, List.append_nil] at hp
      exact List.perm_singleton.1 hp
    · unfold buildWithProgress aggregate
      simp only [foldl_record_skipped, List.nil_append]
      have hp := hOrder.flatMap_right (fun j =>
          match finalOutcome cfg world targets sourceFile outputDir binaryName j with
          | some (t, some .ErrSkipped) => [t.Name]
          | _ => [])
      simp only [List.flatMap_cons, List.flatMap_nil, h0, h1, List.append_nil] at hp
      exact List.perm_nil.1 hp
    · unfold buildWithProgress aggregate
      simp only [foldl_record_errs, List.nil_append]
      have hp := hOrder.flatMap_right (fun j =>
          match finalOutcome cfg world targets sourceFile outputDir binaryName j with
          | some (t, some (.failed msg)) => ["[" ++ t.Name ++ "] " ++ msg]
          | _ => [])
      simp only [List.flatMap_cons, List.flatMap_nil, h0, h1, List.append_nil] at hp
      exact List.perm_singleton.1 hp


theorem buildWithProgress_error_iff_failed_witness :
    [1, 0].Perm (List.range [(⟨"linux", "amd64", "linux/amd64"⟩ : BuildTarget),
        ⟨"linux", "arm64", "linux/arm64"⟩].length)
      ∧ (buildWithProgress {} mixedWorld [1, 0]
          [⟨"linux", "amd64", "linux/amd64"⟩, ⟨"linux", "arm64", "linux/arm64"⟩]
          "main.go" "./build" "main").successful = ["linux/amd64"]
      ∧ (buildWithProgress {} mixedWorld [1, 0]
          [⟨"linux", "amd64", "linux/amd64"⟩, ⟨"linux", "arm64", "linux/arm64"⟩]
          "main.go" "./build" "main").err ≠ none :=
  have h := (buildWithProgress_error_iff_failed {} mixedWorld [1, 0]
    [⟨"linux", "amd64", "linux/amd64"⟩, ⟨"linux", "arm64", "linux/arm64"⟩]
    "main.go" "./build" "main" (by decide)).2.2
    ⟨"linux", "amd64", "linux/amd64"⟩ ⟨"linux", "arm64", "linux/arm64"⟩
    "编译失败 [linux/arm64]: exit status 1\n输出: main.go:1:1: syntax error"
    rfl (by decide) (by decide)
  ⟨by decide, h.1, h.2.2.2⟩


/-! ## The keyword `all` -/

theorem appendLabels_cons (targets : List BuildTarget) (p : String) (rest : List String) :
    appendLabels targets (p :: rest)
      = if isPair p then appendLabels (targets ++ [labelTarget p]) rest
        else appendLabels targets rest := by
  by_cases h : isPair p = true
  · rw [if_pos h, appendLabels, Split_of_isPair p h]
    rfl
  · have h2 : isPair p = false := by simpa using h
    rw [if_neg h, appendLabels]
    have hlen := Split_length_of_not_isPair p h2
    split
    · rename_i os arch heq
      rw [heq] at hlen
      simp at hlen
    · rfl

theorem appendLabels_eq_filter_map (ps : List String) :
    appendLabels [] ps = (ps.filter isPair).map labelTarget := by
  induction ps with
  | nil => simp [appendLabels]
  | cons p rest ih =>
    rw [appendLabels_cons]
    by_cases h : isPair p = true
    · rw [if_pos h, appendLabels_acc, ih]
      simp [List.filter_cons, h]
    · rw [if_neg h, ih]
      simp [List.filter_cons, h]

theorem dropWhile_space_append (w l : List Char) (hw : ∀ c ∈ w, isSpace c = true) :
    (w ++ l).dropWhile isSpace = l.dropWhile isSpace := by
  induction w with
  | nil => rfl
  | cons c w ih =>
    have hc : isSpace c = true := hw c (by simp)
    rw [List.cons_append, List.dropWhile_cons, if_pos hc]
    exact ih (fun d hd => hw d (by simp [hd]))

theorem dropWhile_space_all (w : List Char) (hw : ∀ c ∈ w, isSpace c = true) :
    w.dropWhile isSpace = [] := by
  have := dropWhile_space_append w [] hw
  simpa using this

theorem TrimSpace_space_append (w l : List Char) (hw : ∀ c ∈ w, isSpace c = true) :
    TrimSpace ⟨w ++ l⟩ = TrimSpace ⟨l⟩ := by
  unfold TrimSpace
  simp only [dropWhile_space_append w l hw]

theorem trimRight_append_space (m w : List Char) (hw : ∀ c ∈ w, isSpace c = true) :
    trimRight (m ++ w) = trimRight m := by
  unfold trimRight
  rw [List.reverse_append, dropWhile_space_append w.reverse m.reverse
    (fun c hc => hw c (List.mem_reverse.1 hc))]

theorem TrimSpace_append_space (l w : List Char) (hw : ∀ c ∈ w, isSpace c = true) :
    TrimSpace ⟨l ++ w⟩ = TrimSpace ⟨l⟩ := by
  unfold TrimSpace
  simp only []
  rw [List.dropWhile_append]
  by_cases hl : (l.dropWhile isSpace).isEmpty = true
  · have hnil : l.dropWhile isSpace = [] := List.isEmpty_iff.1 hl
    rw [if_pos hl, dropWhile_space_all w hw, hnil]
  · rw [if_neg hl, trimRight_append_space _ w hw]

theorem pairLines_nil_cons (pieces : List (List Char)) :
    pairLines ([] :: pieces) = pairLines pieces := by
  have h : isPair (TrimSpace ⟨[]⟩) = false := by decide
  unfold pairLines
  rw [List.map_cons, List.filter_cons, h]
  rfl

theorem pairLines_append_nil (pieces : List (List Char)) :
    pairLines (pieces ++ [[]]) = pairLines pieces := by
  have h : isPair (TrimSpace ⟨[]⟩) = false := by decide
  unfold pairLines
  rw [List.map_append, List.filter_append, List.map_cons, List.map_nil, List.filter_cons, h]
  simp

theorem pairLines_appendLast (w : List Char) (hw : ∀ c ∈ w, isSpace c = true)
    (pieces : List (List Char)) :
    pairLines (appendLast w pieces) = pairLines pieces := by
  induction pieces with
  | nil => rfl
  | cons p ps ih =>
    cases ps with
    | nil =>
      unfold pairLines appendLast
      simp only [List.map_cons, List.map_nil, TrimSpace_append_space p w hw]
    | cons q qs =>
      unfold pairLines at ih ⊢
      rw [appendLast, List.map_cons, List.map_cons, List.filter_cons, List.filter_cons, ih]

theorem splitChars_append_no_sep (sep : Char) (a w : List Char) (hw : sep ∉ w) :
    splitChars sep (a ++ w) = appendLast w (splitChars sep a) := by
  induction a with
  | nil =>
    rw [List.nil_append, splitChars_of_not_mem sep w hw]
    rfl
  | cons c a ih =>
    by_cases h : c = sep
    · subst h
      rw [List.cons_append, splitChars_cons_eq, splitChars_cons_eq, ih]
      cases hs : splitChars c a with
      | nil => exact absurd hs (splitChars_ne_nil c a)
      | cons p ps => rfl
    · rw [List.cons_append, splitChars_cons_ne sep c _ h, splitChars_cons_ne sep c _ h, ih]
      cases hs : splitChars sep a with
      | nil => exact absurd hs (splitChars_ne_nil sep a)
      | cons p ps =>
        cases ps with
        | nil => rfl
        | cons q qs => rfl

/-- White space in front of a text adds no os/arch line. -/
theorem pairLines_space_append (w m : List Char) (hw : ∀ c ∈ w, isSpace c = true) :
    pairLines (splitChars '\n' (w ++ m)) = pairLines (splitChars '\n' m) := by
  induction w with
  | nil => rfl
  | cons c w ih =>
    have hc : isSpace c = true := hw c (by simp)
    have ih2 := ih (fun d hd => hw d (by simp [hd]))
    by_cases h : c = '\n'
    · subst h
      rw [List.cons_append, splitChars_cons_eq, pairLines_nil_cons, ih2]
    · rw [List.cons_append, splitChars_cons_ne '\n' c _ h, ← ih2]
      cases hs : splitChars '\n' (w ++ m) with
      | nil => exact absurd hs (splitChars_ne_nil _ _)
      | cons p ps =>
        unfold pairLines
        simp only [List.headD_cons, List.tail_cons, List.map_cons]
        have : TrimSpace ⟨c :: p⟩ = TrimSpace ⟨p⟩ :=
          TrimSpace_space_append [c] p (fun d hd => by
            have : d = c := by simpa using hd
            rw [this]; exact hc)
        rw [this]

/-- White space after a text adds no os/arch line. -/
theorem pairLines_append_space (w : List Char) (hw : ∀ c ∈ w, isSpace c = true)
    (a : List Char) :
    pairLines (splitChars '\n' (a ++ w)) = pairLines (splitChars '\n' a) := by
  induction w generalizing a with
  | nil => rw [List.append_nil]
  | cons c w ih =>
    have hc : isSpace c = true := hw c (by simp)
    have hstep : a ++ c :: w = (a ++ [c]) ++ w := by simp
    rw [hstep, ih (fun d hd => hw d (by simp [hd])) (a ++ [c])]
    by_cases h : c = '\n'
    · subst h
      rw [splitChars_append_sep]
      have : splitChars '\n' [] = [[]] := rfl
      rw [this, pairLines_append_nil]
    · have hns : '\n' ∉ [c] := by
        intro hm
        have : '\n' = c := by simpa using hm
        exact h this.symm
      rw [splitChars_append_no_sep '\n' a [c] hns]
      exact pairLines_appendLast [c] (fun d hd => by
        have : d = c := by simpa using hd
        rw [this]; exact hc) _

/-- Trimming the whole output first, as `getAllSupportedPlatforms` does, changes
nothing about its os/arch lines. -/
theorem pairLines_TrimSpace (output : String) :
    pairLines (splitChars '\n' (TrimSpace output).data)
      = pairLines (splitChars '\n' output.data) := by
  have h1 : output.data
      = output.data.takeWhile isSpace ++ output.data.dropWhile isSpace :=
    (List.takeWhile_append_dropWhile _ _).symm
  have h2 : output.data.dropWhile isSpace
      = trimRight (output.data.dropWhile isSpace)
        ++ ((output.data.dropWhile isSpace).reverse.takeWhile isSpace).reverse := by
    unfold trimRight
    rw [← List.reverse_append, List.takeWhile_append_dropWhile, List.reverse_reverse]
  have hL : ∀ c ∈ output.data.takeWhile isSpace, isSpace c = true :=
    fun c hc => List.mem_takeWhile_imp hc
  have hR : ∀ c ∈ ((output.data.dropWhile isSpace).reverse.takeWhile isSpace).reverse,
      isSpace c = true :=
    fun c hc => List.mem_takeWhile_imp (List.mem_reverse.1 hc)
  have hT : (TrimSpace output).data = trimRight (output.data.dropWhile isSpace) := rfl
  rw [hT]
  conv_rhs => rw [h1]
  rw [pairLines_space_append _ _ hL]
  conv_rhs => rw [h2]
  rw [pairLines_append_space _ hR]

theorem isPair_imp (p : String) (h : isPair p = true) :
    (p != "" && Contains p '/') = true := by
  unfold isPair at h
  have hc : p.data.count '/' = 1 := by simpa using h
  have hmem : '/' ∈ p.data := List.count_pos_iff.1 (by omega)
  have hne : p ≠ "" := by
    intro e
    rw [e] at hmem
    simp at hmem
  unfold Contains
  simp [hne, hmem]

/-- The os/arch entries of the list `getAllSupportedPlatforms` returns are the
pairs the discovery tool reports. -/
theorem getAllSupportedPlatforms_pairs (host : Host) (output : String)
    (h : host.distList = some output) :
    ∃ reported, getAllSupportedPlatforms host = some reported
      ∧ reported.filter isPair = reportedPairs output := by
  refine ⟨_, by unfold getAllSupportedPlatforms; rw [h], ?_⟩
  rw [List.filter_filter]
  have hcongr : ∀ p ∈ (Split (TrimSpace output) '\n').map TrimSpace,
      (isPair p && (p != "" && Contains p '/')) = isPair p := by
    intro p _
    cases hp : isPair p with
    | false => simp
    | true => simp [isPair_imp p hp]
  rw [List.filter_congr hcongr]
  have hl : ∀ s : String, ((Split s '\n').map TrimSpace).filter isPair
      = pairLines (splitChars '\n' s.data) := by
    intro s
    unfold Split pairLines
    rw [List.map_map]
    rfl
  unfold reportedPairs
  rw [hl, hl, pairLines_TrimSpace]

/-- C6: `parsePlatforms("all")` returns, when the discovery command succeeds,
one target per os/arch pair in its output (the lines of the output, trimmed,
that have the form os/arch), in the order of the output, and when the
discovery command fails the targets of the 23 labels of the static list, in
the order of that list. -/
theorem parsePlatforms_all (cfg : Config) (host : Host) :
    parsePlatforms cfg host "all"
        = (match host.distList with
           | some output => (reportedPairs output).map labelTarget
           | none => fallbackAll.map labelTarget)
      ∧ fallbackAll.length = 23
      ∧ fallbackAll.all isPair = true
      ∧ (fallbackAll.map labelTarget).map (fun t => t.GOOS ++ "/" ++ t.GOARCH) = fallbackAll := by
  refine ⟨?_, by decide, by decide, by decide⟩
  have hs : Split "all" ',' = ["all"] := by decide
  have ht : TrimSpace "all" = "all" := by decide
  unfold parsePlatforms
  rw [hs, List.foldl_cons, List.foldl_nil]
  unfold parseToken
  simp only [ht, if_true]
  cases hd : host.distList with
  | some output =>
    obtain ⟨reported, hrep, hpairs⟩ := getAllSupportedPlatforms_pairs host output hd
    simp only [hrep, appendLabels_eq_filter_map, hpairs]
  | none =>
    have hnone : getAllSupportedPlatforms host = none := by
      unfold getAllSupportedPlatforms
      rw [hd]
    simp only [hnone, appendLabels_eq_filter_map]
    have : fallbackAll.filter isPair = fallbackAll := by decide
    rw [this]

/-! ## A bare operating-system name -/

theorem Split_of_no_sep (s : String) (sep : Char) (h : sep ∉ s.data) : Split s sep = [s] := by
  unfold Split
  rw [splitChars_of_not_mem sep s.data h]
  rfl

theorem any_archs_iff (catalog : List String) (os arch : String)
    (hOs : '/' ∉ os.data) (hArch : '/' ∉ arch.data) :
    (catalog.filterMap (fun platform =>
        match Split platform '/' with
        | [o, a] => if o = os then some a else none
        | _ => none)).any (fun a => a = arch) = true
      ↔ os ++ "/" ++ arch ∈ catalog := by
  rw [List.any_eq_true]
  constructor
  · rintro ⟨a, ha, hEq⟩
    have hEq : a = arch := by simpa using hEq
    subst hEq
    obtain ⟨p, hp, hf⟩ := List.mem_filterMap.1 ha
    split at hf
    · rename_i o a2 hsplit
      split at hf
      · rename_i ho
        have : a2 = a := by simpa using hf
        subst this
        subst ho
        rw [← ((Split_eq_pair_iff p o a2).1 hsplit).1]
        exact hp
      · simp at hf
    · simp at hf
  · intro hmem
    refine ⟨arch, List.mem_filterMap.2 ⟨os ++ "/" ++ arch, hmem, ?_⟩, by simp⟩
    rw [(Split_eq_pair_iff (os ++ "/" ++ arch) os arch).2 ⟨rfl, hOs, hArch⟩]
    simp

/-- C7: let X be a token of the specification as the resolver reads it (the
text between commas, trimmed) that has no slash, is not `all` and is not a
group name. With the all-architectures flag unset, `parsePlatforms` returns
the one target (X, hostArch, X/hostArch) when the discovery call succeeds
and its list has the label X/hostArch, and no target in every other case,
the failure of the discovery call included; so it returns at most one
target. (`runtime.GOARCH` has no slash.) -/
theorem parsePlatforms_bare_os (cfg : Config) (host : Host) (raw : String)
    (hAll : cfg.All = false) (hComma : ',' ∉ raw.data)
    (hSlash : '/' ∉ (TrimSpace raw).data) (hNotAll : TrimSpace raw ≠ "all")
    (hGroup : PlatformGroups (TrimSpace raw) = none)
    (hArch : '/' ∉ host.GOARCH.data) :
    parsePlatforms cfg host raw
        = (match getAllSupportedPlatforms host with
           | some catalog =>
             if TrimSpace raw ++ "/" ++ host.GOARCH ∈ catalog then
               [⟨TrimSpace raw, host.GOARCH, TrimSpace raw ++ "/" ++ host.GOARCH⟩]
             else []
           | none => [])
      ∧ (parsePlatforms cfg host raw).length ≤ 1 := by
  have hmain : parsePlatforms cfg host raw
        = (match getAllSupportedPlatforms host with
           | some catalog =>
             if TrimSpace raw ++ "/" ++ host.GOARCH ∈ catalog then
               [⟨TrimSpace raw, host.GOARCH, TrimSpace raw ++ "/" ++ host.GOARCH⟩]
             else []
           | none => []) := by
    have hc : Contains (TrimSpace raw) '/' = false := by
      unfold Contains
      simpa using hSlash
    unfold parsePlatforms
    rw [Split_of_no_sep raw ',' hComma, List.foldl_cons, List.foldl_nil]
    unfold parseToken
    simp only [hNotAll, if_false, hGroup, hc, hAll, Bool.false_eq_true, getNativeArch]
    unfold getArchsForOS
    cases getAllSupportedPlatforms host with
    | none => rfl
    | some catalog =>
      simp only []
      by_cases hmem : TrimSpace raw ++ "/" ++ host.GOARCH ∈ catalog
      · rw [if_pos ((any_archs_iff catalog _ _ hSlash hArch).2 hmem), if_pos hmem]
        simp
      · rw [if_neg (fun h => hmem ((any_archs_iff catalog _ _ hSlash hArch).1 h)), if_neg hmem]
  refine ⟨hmain, ?_⟩
  rw [hmain]
  cases getAllSupportedPlatforms host with
  | none => simp
  | some catalog =>
    simp only []
    split <;> simp

theorem parsePlatforms_bare_os_witness :
    ({} : Config).All = false ∧ ',' ∉ " linux".data ∧ '/' ∉ (TrimSpace " linux").data
      ∧ TrimSpace " linux" ≠ "all" ∧ PlatformGroups (TrimSpace " linux") = none
      ∧ '/' ∉ onlineHost.GOARCH.data
      ∧ parsePlatforms {} onlineHost " linux" = [⟨"linux", "arm64", "linux/arm64"⟩] :=
  ⟨rfl, by decide, by decide, by decide, by decide, by decide,
   by
    rw [(parsePlatforms_bare_os {} onlineHost " linux" rfl (by decide) (by decide) (by decide)
      (by decide) (by decide)).1]
    decide⟩


/-! ## The job executor on android -/

/-- C8 fails on the code: for android/arm64 with empty `LDFlags` (and the
prompt answered in advance by `--no-prompt`), the command that is run has
the arguments `build -o <path> <source>` without `-ldflags`: it was made by
`exec.Command` before the android branch, and the branch only assigns the
augmented slice to the local variable `args`, which nothing reads
afterwards. -/
theorem android_static_flags_not_passed :
    (buildSingle { NoPrompt := true } offlineHost ⟨"android", "arm64", "android/arm64"⟩
        "main.go" "./build" "main").invoked
        = some ⟨"go", ["go", "build", "-o", "build/android/arm64/main", "main.go"],
            ["GOOS=android", "GOARCH=arm64", "CGO_ENABLED=1"]⟩
      ∧ (buildSingle { NoPrompt := true } offlineHost ⟨"android", "arm64", "android/arm64"⟩
        "main.go" "./build" "main").args
        = ["build", "-ldflags", "-linkmode=external -extldflags=-static", "-o",
            "build/android/arm64/main", "main.go"]
      ∧ (buildSingle { NoPrompt := true } offlineHost ⟨"android", "arm64", "android/arm64"⟩
        "main.go" "./build" "main").err = none := by
  decide

/-- C9 fails as stated, in two ways. At verbosity 0 `buildSingle` does not ask:
with the answer `n` waiting on standard input it compiles android/arm64 and
returns `nil`. And at verbosity 1, when the output directory cannot be made,
it returns that failure, not `ErrSkipped`: `os.MkdirAll` runs before the
prompt. -/
theorem android_prompt_counterexample :
    ((buildSingle { Verbose := 0 } decliningHost ⟨"android", "arm64", "android/arm64"⟩
          "main.go" "./build" "main").err = none
        ∧ (buildSingle { Verbose := 0 } decliningHost ⟨"android", "arm64", "android/arm64"⟩
          "main.go" "./build" "main").invoked.isSome = true)
      ∧ (buildSingle { Verbose := 1 } readOnlyHost ⟨"android", "arm64", "android/arm64"⟩
          "main.go" "./build" "main").err
        = some (.failed "创建输出目录失败: read-only file system") := by
  decide

/-- C9, as the code has it: for an android target at verbosity 1 or higher,
when `NoPrompt` is unset and the answer is not `y` or `yes` after trimming and
lower-casing (or there is no input), `buildSingle` does not invoke the
compiler and returns an error, which is `ErrSkipped` when the output
directory could be made. -/
theorem android_declined_is_skipped (cfg : Config) (host : Host) (target : BuildTarget)
    (sourceFile outputDir binaryName : String)
    (hOS : target.GOOS = "android") (hVerbose : 1 ≤ cfg.Verbose)
    (hNoPrompt : cfg.NoPrompt = false)
    (hAnswer : ∀ text, host.stdin = some text →
      ToLower host (TrimSpace text) ≠ "y" ∧ ToLower host (TrimSpace text) ≠ "yes") :
    (buildSingle cfg host target sourceFile outputDir binaryName).invoked = none
      ∧ (buildSingle cfg host target sourceFile outputDir binaryName).err ≠ none
      ∧ (host.mkdirAll (outputPath target outputDir binaryName) = none →
          (buildSingle cfg host target sourceFile outputDir binaryName).err
            = some BuildError.ErrSkipped) := by
  have hask : askUserConfirm cfg host = false := by
    unfold askUserConfirm
    rw [hNoPrompt]
    cases hs : host.stdin with
    | none => simp
    | some text =>
      obtain ⟨h1, h2⟩ := hAnswer text hs
      simp [h1, h2]
  have hsetup : ∀ cmd args, platformSetup cfg host target cmd args
      = Except.error BuildError.ErrSkipped := by
    intro cmd args
    unfold platformSetup
    have h1 : ¬ ("android" : String) = "js" := by decide
    have h2 : ¬ ("android" : String) = "ios" := by decide
    simp [hOS, h1, h2, hask, hVerbose]
  unfold buildSingle
  split
  · simp
  · cases hm : host.mkdirAll (outputPath target outputDir binaryName) with
    | some e => simp [hm]
    | none => simp [hm, hsetup]

theorem android_declined_is_skipped_witness :
    (⟨"android", "arm64", "android/arm64"⟩ : BuildTarget).GOOS = "android"
      ∧ (1 : Int) ≤ ({} : Config).Verbose ∧ ({} : Config).NoPrompt = false
      ∧ (buildSingle {} decliningHost ⟨"android", "arm64", "android/arm64"⟩
          "main.go" "./build" "main").err = some BuildError.ErrSkipped :=
  ⟨rfl, by decide, rfl,
    (android_declined_is_skipped {} decliningHost ⟨"android", "arm64", "android/arm64"⟩
      "main.go" "./build" "main" rfl (by decide) rfl
      (by
        intro text h
        have ht : text = "n" := by
          have : some "n" = some text := h
          exact (Option.some.inj this).symm
        subst ht
        decide)).2.2 rfl⟩


/-! ## Output paths of distinct targets -/

theorem cleanStep_plain (rooted : Bool) (out : List (List Char)) (e : List Char)
    (h1 : e ≠ []) (h2 : e ≠ ['.']) (h3 : e ≠ ['.', '.']) :
    cleanStep rooted out e = out ++ [e] := by
  unfold cleanStep
  simp [h1, h2, h3]

theorem intercalate_cons_cons (sep : Char) (x y : List Char) (r : List (List Char)) :
    List.intercalate [sep] (x :: y :: r) = x ++ sep :: List.intercalate [sep] (y :: r) := by
  simp [List.intercalate, List.intersperse]

theorem intercalate_singleton (sep : Char) (x : List Char) :
    List.intercalate [sep] [x] = x := by
  simp [List.intercalate, List.intersperse]

theorem intercalate_append_three (sep : Char) (r : List (List Char)) (a b c : List Char) :
    List.intercalate [sep] (r ++ [a, b, c])
      = (if r = [] then [] else List.intercalate [sep] r ++ [sep])
          ++ (a ++ sep :: (b ++ sep :: c)) := by
  induction r with
  | nil =>
    simp only [List.nil_append, if_true]
    rw [intercalate_cons_cons, intercalate_cons_cons, intercalate_singleton]
  | cons x r ih =>
    cases r with
    | nil =>
      simp only [List.cons_append, List.nil_append, reduceCtorEq, if_false] at ih ⊢
      rw [intercalate_cons_cons, ih, intercalate_singleton]
      simp
    | cons y r =>
      simp only [List.cons_append, reduceCtorEq, if_false] at ih ⊢
      rw [intercalate_cons_cons, ih, intercalate_cons_cons]
      simp


theorem mk_ne_empty (l : List Char) (hl : l ≠ []) : (⟨l⟩ : String) ≠ "" := by
  intro h
  exact hl (congrArg String.data h)

theorem foldl_cleanStep_three (rooted : Bool) (es : List (List Char)) (a b c : List Char)
    (ha : a ≠ [] ∧ a ≠ ['.'] ∧ a ≠ ['.', '.']) (hb : b ≠ [] ∧ b ≠ ['.'] ∧ b ≠ ['.', '.'])
    (hc : c ≠ [] ∧ c ≠ ['.'] ∧ c ≠ ['.', '.']) :
    (es ++ [a, b, c]).foldl (cleanStep rooted) []
      = es.foldl (cleanStep rooted) [] ++ [a, b, c] := by
  rw [List.foldl_append]
  simp only [List.foldl_cons, List.foldl_nil]
  rw [cleanStep_plain rooted _ a ha.1 ha.2.1 ha.2.2, cleanStep_plain rooted _ b hb.1 hb.2.1 hb.2.2,
    cleanStep_plain rooted _ c hc.1 hc.2.1 hc.2.2]
  simp

theorem splitChars_three (a b c : List Char) (ha : '/' ∉ a) (hb : '/' ∉ b) (hc : '/' ∉ c) :
    splitChars '/' (a ++ '/' :: (b ++ '/' :: c)) = [a, b, c] := by
  rw [splitChars_append '/' a _ ha, splitChars_append '/' b _ hb, splitChars_of_not_mem '/' c hc]

/-- The cleaned path of `Join [outputDir, os/arch, file]` is `os/arch/file` after
a part that depends on the output root alone, when the three are plain
path elements. -/
theorem Join_three (outputDir : String) :
    ∃ root : List Char, ∀ a b c : List Char,
      (a ≠ [] ∧ a ≠ ['.'] ∧ a ≠ ['.', '.'] ∧ '/' ∉ a) →
      (b ≠ [] ∧ b ≠ ['.'] ∧ b ≠ ['.', '.'] ∧ '/' ∉ b) →
      (c ≠ [] ∧ c ≠ ['.'] ∧ c ≠ ['.', '.'] ∧ '/' ∉ c) →
      Join [outputDir, ⟨a ++ '/' :: b⟩, ⟨c⟩] = ⟨root ++ (a ++ '/' :: (b ++ '/' :: c))⟩ := by
  by_cases ho : outputDir = ""
  · refine ⟨[], fun a b c ha hb hc => ?_⟩
    subst ho
    have hname : (⟨a ++ '/' :: b⟩ : String) ≠ "" := mk_ne_empty _ (by simp)
    have hjoin : Join ["", ⟨a ++ '/' :: b⟩, ⟨c⟩] = Clean ⟨a ++ '/' :: (b ++ '/' :: c)⟩ := by
      unfold Join
      simp [List.dropWhile_cons, hname, intercalate_cons_cons, intercalate_singleton]
    rw [hjoin]
    unfold Clean
    rw [if_neg (mk_ne_empty _ (by simp))]
    have hhead : ¬ ((a ++ '/' :: (b ++ '/' :: c)).head? = some '/') := by
      cases a with
      | nil => exact absurd rfl ha.1
      | cons x xs =>
        intro h
        have : x = '/' := by simpa using h
        exact ha.2.2.2 (by simp [this])
    simp only [hhead, decide_False, Bool.false_eq_true, if_false]
    rw [splitChars_three a b c ha.2.2.2 hb.2.2.2 hc.2.2.2]
    have := foldl_cleanStep_three false [] a b c ⟨ha.1, ha.2.1, ha.2.2.1⟩
      ⟨hb.1, hb.2.1, hb.2.2.1⟩ ⟨hc.1, hc.2.1, hc.2.2.1⟩
    simp only [List.nil_append, List.foldl_nil] at this
    rw [this]
    simp [intercalate_cons_cons, intercalate_singleton]
  · refine ⟨(if outputDir.data.head? = some '/' then ['/'] else [])
        ++ (if (splitChars '/' outputDir.data).foldl
              (cleanStep (outputDir.data.head? = some '/')) [] = [] then []
            else List.intercalate ['/'] ((splitChars '/' outputDir.data).foldl
              (cleanStep (outputDir.data.head? = some '/')) []) ++ ['/']),
      fun a b c ha hb hc => ?_⟩
    have hdata : outputDir.data ≠ [] := fun h => ho (String.ext h)
    have hname : (⟨a ++ '/' :: b⟩ : String) ≠ "" := mk_ne_empty _ (by simp)
    have hjoin : Join [outputDir, ⟨a ++ '/' :: b⟩, ⟨c⟩]
        = Clean ⟨outputDir.data ++ '/' :: (a ++ '/' :: (b ++ '/' :: c))⟩ := by
      unfold Join
      simp [List.dropWhile_cons, ho, intercalate_cons_cons, intercalate_singleton]
    rw [hjoin]
    unfold Clean
    rw [if_neg (mk_ne_empty _ (by simp))]
    have hhead : (outputDir.data ++ '/' :: (a ++ '/' :: (b ++ '/' :: c))).head?
        = outputDir.data.head? := by
      cases hd : outputDir.data with
      | nil => exact absurd hd hdata
      | cons x xs => simp
    simp only [hhead]
    rw [splitChars_append_sep, splitChars_three a b c ha.2.2.2 hb.2.2.2 hc.2.2.2,
      foldl_cleanStep_three _ _ a b c ⟨ha.1, ha.2.1, ha.2.2.1⟩
        ⟨hb.1, hb.2.1, hb.2.2.1⟩ ⟨hc.1, hc.2.1, hc.2.2.1⟩,
      intercalate_append_three]
    by_cases hr : outputDir.data.head? = some '/'
    · simp [hr]
    · simp [hr]


theorem name_of_mem_appendLabels (ps : List String) (t : BuildTarget)
    (h : t ∈ appendLabels [] ps) : t.Name = t.GOOS ++ "/" ++ t.GOARCH := by
  rw [appendLabels_eq_filter_map] at h
  obtain ⟨p, hp, rfl⟩ := List.mem_map.1 h
  have hpair : isPair p = true := (List.mem_filter.1 hp).2
  exact ((Split_eq_pair_iff p _ _).1 (Split_of_isPair p hpair)).1

theorem name_of_mem_parseToken (cfg : Config) (host : Host) (raw : String) (t : BuildTarget)
    (h : t ∈ parseToken cfg host [] raw) : t.Name = t.GOOS ++ "/" ++ t.GOARCH := by
  unfold parseToken at h
  simp only [] at h
  split at h
  · exact name_of_mem_appendLabels _ t h
  · split at h
    · exact name_of_mem_appendLabels _ t h
    · split at h
      · split at h
        · rename_i os arch hsplit
          have : t = ⟨os, arch, TrimSpace raw⟩ := by simpa using h
          subst this
          exact ((Split_eq_pair_iff _ os arch).1 hsplit).1
        · simp at h
      · split at h
        · split at h
          · simp at h
          · split at h
            · simp at h
            · simp only [List.nil_append, List.mem_map] at h
              obtain ⟨arch, _, rfl⟩ := h
              rfl
        · split at h
          · simp at h
          · split at h
            · simp only [List.nil_append, List.mem_map] at h
              obtain ⟨arch, _, rfl⟩ := h
              rfl
            · simp at h

theorem name_of_mem_parsePlatforms (cfg : Config) (host : Host) (platformStr : String)
    (t : BuildTarget) (h : t ∈ parsePlatforms cfg host platformStr) :
    t.Name = t.GOOS ++ "/" ++ t.GOARCH := by
  rw [parsePlatforms_eq_flatMap cfg host platformStr] at h
  obtain ⟨raw, _, hraw⟩ := List.mem_flatMap.1 h
  exact name_of_mem_parseToken cfg host raw t hraw

theorem data_of_isPlainElem (s : String) (h : isPlainElem s = true) :
    s.data ≠ [] ∧ s.data ≠ ['.'] ∧ s.data ≠ ['.', '.'] ∧ '/' ∉ s.data := by
  unfold isPlainElem Contains at h
  simp only [Bool.and_eq_true, decide_eq_true_eq, Bool.not_eq_true', ne_eq] at h
  obtain ⟨⟨⟨h1, h2⟩, h3⟩, h4⟩ := h
  refine ⟨fun e => h1 (String.ext e), fun e => h3 (String.ext e), fun e => h4 (String.ext e), ?_⟩
  intro hm
  have : s.data.elem '/' = true := by simpa using hm
  rw [this] at h2
  exact absurd h2 (by simp)

theorem data_exe_of_isPlainElem (s : String) (h : isPlainElem s = true) :
    (s ++ ".exe").data ≠ [] ∧ (s ++ ".exe").data ≠ ['.'] ∧ (s ++ ".exe").data ≠ ['.', '.']
      ∧ '/' ∉ (s ++ ".exe").data := by
  obtain ⟨h1, _, _, h4⟩ := data_of_isPlainElem s h
  have hd : (s ++ ".exe").data = s.data ++ ['.', 'e', 'x', 'e'] := by
    rw [String.data_append]
  have hlen : 5 ≤ (s ++ ".exe").data.length := by
    rw [hd, List.length_append]
    have : 0 < s.data.length := List.length_pos.2 h1
    show 5 ≤ s.data.length + 4
    omega
  refine ⟨?_, ?_, ?_, ?_⟩
  · intro e; rw [e] at hlen; simp at hlen
  · intro e; rw [e] at hlen; simp at hlen
  · intro e; rw [e] at hlen; simp at hlen
  · rw [hd]
    intro hm
    rcases List.mem_append.1 hm with hm | hm
    · exact h4 hm
    · revert hm; decide

theorem pair_eq_of_join_eq (a1 b1 c1 a2 b2 c2 : List Char)
    (ha1 : '/' ∉ a1) (hb1 : '/' ∉ b1) (ha2 : '/' ∉ a2) (hb2 : '/' ∉ b2)
    (h : a1 ++ '/' :: (b1 ++ '/' :: c1) = a2 ++ '/' :: (b2 ++ '/' :: c2)) :
    a1 = a2 ∧ b1 = b2 := by
  have ha : a1 = a2 := by
    have e1 := (takeWhile_ne_append '/' a1 (b1 ++ '/' :: c1) ha1).1
    have e2 := (takeWhile_ne_append '/' a2 (b2 ++ '/' :: c2) ha2).1
    rw [h] at e1
    exact e1.symm.trans e2
  have hrest : b1 ++ '/' :: c1 = b2 ++ '/' :: c2 := by
    have e1 := (takeWhile_ne_append '/' a1 (b1 ++ '/' :: c1) ha1).2
    have e2 := (takeWhile_ne_append '/' a2 (b2 ++ '/' :: c2) ha2).2
    rw [h] at e1
    exact e1.symm.trans e2
  have hb : b1 = b2 := by
    have e1 := (takeWhile_ne_append '/' b1 c1 hb1).1
    have e2 := (takeWhile_ne_append '/' b2 c2 hb2).1
    rw [hrest] at e1
    exact e1.symm.trans e2
  exact ⟨ha, hb⟩

/-- The output path of a target whose name is os/arch, for plain elements: a
part that depends on the output root alone, then os/arch/file. -/
theorem outputPath_shape (outputDir binaryName : String) (hbin : isPlainElem binaryName = true) :
    ∃ root : List Char, ∀ t : BuildTarget,
      t.Name = t.GOOS ++ "/" ++ t.GOARCH →
      isPlainElem t.GOOS = true → isPlainElem t.GOARCH = true →
      ∃ file : List Char,
        outputPath t outputDir binaryName
          = ⟨root ++ (t.GOOS.data ++ '/' :: (t.GOARCH.data ++ '/' :: file))⟩ := by
  obtain ⟨root, hroot⟩ := Join_three outputDir
  refine ⟨root, fun t hname hos harch => ?_⟩
  have hn : t.Name = ⟨t.GOOS.data ++ '/' :: t.GOARCH.data⟩ := by
    rw [hname]
    apply String.ext
    simp [String.data_append]
  have hos2 := data_of_isPlainElem _ hos
  have harch2 := data_of_isPlainElem _ harch
  unfold outputPath
  simp only [hn]
  split
  · refine ⟨(binaryName ++ ".exe").data, ?_⟩
    exact hroot _ _ _ hos2 harch2 (data_exe_of_isPlainElem _ hbin)
  · refine ⟨binaryName.data, ?_⟩
    exact hroot _ _ _ hos2 harch2 (data_of_isPlainElem _ hbin)

/-- C10, as the code has it: for every output root, every binary base name that
is a plain path element, and every two targets that `parsePlatforms` can
return, with distinct (GOOS, GOARCH) pairs made of plain path elements, the
output paths that `buildSingle` computes are different. -/
theorem outputPath_distinct (cfg1 cfg2 : Config) (host1 host2 : Host)
    (platformStr1 platformStr2 : String) (t1 t2 : BuildTarget) (outputDir binaryName : String)
    (h1 : t1 ∈ parsePlatforms cfg1 host1 platformStr1)
    (h2 : t2 ∈ parsePlatforms cfg2 host2 platformStr2)
    (hne : (t1.GOOS, t1.GOARCH) ≠ (t2.GOOS, t2.GOARCH))
    (hbin : isPlainElem binaryName = true)
    (hp1 : isPlainElem t1.GOOS = true ∧ isPlainElem t1.GOARCH = true)
    (hp2 : isPlainElem t2.GOOS = true ∧ isPlainElem t2.GOARCH = true) :
    outputPath t1 outputDir binaryName ≠ outputPath t2 outputDir binaryName := by
  obtain ⟨root, hroot⟩ := outputPath_shape outputDir binaryName hbin
  obtain ⟨f1, e1⟩ := hroot t1 (name_of_mem_parsePlatforms _ _ _ _ h1) hp1.1 hp1.2
  obtain ⟨f2, e2⟩ := hroot t2 (name_of_mem_parsePlatforms _ _ _ _ h2) hp2.1 hp2.2
  intro heq
  rw [e1, e2] at heq
  have hl := List.append_cancel_left (congrArg String.data heq)
  obtain ⟨ha, hb⟩ := pair_eq_of_join_eq _ _ _ _ _ _
    (data_of_isPlainElem _ hp1.1).2.2.2 (data_of_isPlainElem _ hp1.2).2.2.2
    (data_of_isPlainElem _ hp2.1).2.2.2 (data_of_isPlainElem _ hp2.2).2.2.2 hl
  exact hne (Prod.ext (String.ext ha) (String.ext hb))

/-- C10 fails as stated, in two ways. With the binary base name `../main` the
targets linux/amd64 and linux/arm64 of the group `server` get the same
output path. And the tokens `./x` and `x/.` yield targets with the distinct
pairs (`.`, `x`) and (`x`, `.`) and the same output path. -/
theorem outputPath_collisions :
    ((⟨"linux", "amd64", "linux/amd64"⟩ : BuildTarget) ∈ parsePlatforms {} offlineHost "server"
        ∧ (⟨"linux", "arm64", "linux/arm64"⟩ : BuildTarget) ∈ parsePlatforms {} offlineHost "server"
        ∧ outputPath ⟨"linux", "amd64", "linux/amd64"⟩ "./build" "../main" = "build/linux/main"
        ∧ outputPath ⟨"linux", "arm64", "linux/arm64"⟩ "./build" "../main" = "build/linux/main")
      ∧ (parsePlatforms {} offlineHost "./x,x/." = [⟨".", "x", "./x"⟩, ⟨"x", ".", "x/."⟩]
        ∧ outputPath ⟨".", "x", "./x"⟩ "./build" "main" = "build/x/main"
        ∧ outputPath ⟨"x", ".", "x/."⟩ "./build" "main" = "build/x/main") := by
  decide

theorem outputPath_distinct_witness :
    (⟨"linux", "amd64", "linux/amd64"⟩ : BuildTarget) ∈ parsePlatforms {} offlineHost "server"
      ∧ (⟨"windows", "amd64", "windows/amd64"⟩ : BuildTarget)
          ∈ parsePlatforms {} offlineHost "desktop"
      ∧ isPlainElem "main" = true
      ∧ outputPath ⟨"linux", "amd64", "linux/amd64"⟩ "./build" "main"
          ≠ outputPath ⟨"windows", "amd64", "windows/amd64"⟩ "./build" "main" :=
  ⟨by decide, by decide, by decide,
    outputPath_distinct {} {} offlineHost offlineHost "server" "desktop"
      ⟨"linux", "amd64", "linux/amd64"⟩ ⟨"windows", "amd64", "windows/amd64"⟩ "./build" "main"
      (by decide) (by decide) (by decide) (by decide) (by decide) (by decide)⟩


/-! ## One entry per target -/

theorem length_flatMap_three {α : Type} (l : List α) (a b c : α → List String)
    (h : ∀ j ∈ l, (a j).length + (b j).length + (c j).length = 1) :
    (l.flatMap a).length + (l.flatMap b).length + (l.flatMap c).length = l.length := by
  induction l with
  | nil => simp
  | cons j rest ih =>
    have hj := h j (by simp)
    have hrest := ih (fun i hi => h i (by simp [hi]))
    simp only [List.flatMap_cons, List.length_append, List.length_cons]
    omega

theorem entries_of_outcome (t : BuildTarget) (err : Option BuildError) :
    (successfulEntry (some (t, err))).length + (skippedEntry (some (t, err))).length
      + (failedEntry (some (t, err))).length = 1 := by
  rcases err with _ | _ | msg <;> simp [successfulEntry, skippedEntry, failedEntry]

theorem aggregate_entries (cfg : Config) (world : Nat → Nat → Host) (order : List Nat)
    (targets : List BuildTarget) (sourceFile outputDir binaryName : String) :
    (aggregate cfg world order targets sourceFile outputDir binaryName).successful
        = order.flatMap (fun j =>
            successfulEntry (finalOutcome cfg world targets sourceFile outputDir binaryName j))
      ∧ (aggregate cfg world order targets sourceFile outputDir binaryName).skipped
        = order.flatMap (fun j =>
            skippedEntry (finalOutcome cfg world targets sourceFile outputDir binaryName j))
      ∧ (aggregate cfg world order targets sourceFile outputDir binaryName).errs
        = order.flatMap (fun j =>
            failedEntry (finalOutcome cfg world targets sourceFile outputDir binaryName j)) := by
  unfold aggregate
  rw [foldl_record_successful, foldl_record_skipped, foldl_record_errs]
  refine ⟨?_, ?_, ?_⟩
  · simp only [List.nil_append]
    congr 1
  · simp only [List.nil_append]
    congr 1
  · simp only [List.nil_append]
    congr 1


/-- C11: whatever the executor does and in whatever order the workers reach
the critical section, the three slices are made of the entries of the
jobs, every job (a duplicate target is a job of its own) adds one entry to
exactly one slice, the one its last `err` selects, and the three lengths
add up to the number of targets. -/
theorem buildWithProgress_one_entry_per_target (cfg : Config) (world : Nat → Nat → Host)
    (order : List Nat) (targets : List BuildTarget) (sourceFile outputDir binaryName : String)
    (hOrder : order.Perm (List.range targets.length)) :
    (buildWithProgress cfg world order targets sourceFile outputDir binaryName).successful
        = order.flatMap (fun j =>
            successfulEntry (finalOutcome cfg world targets sourceFile outputDir binaryName j))
      ∧ (buildWithProgress cfg world order targets sourceFile outputDir binaryName).skipped
        = order.flatMap (fun j =>
            skippedEntry (finalOutcome cfg world targets sourceFile outputDir binaryName j))
      ∧ (buildWithProgress cfg world order targets sourceFile outputDir binaryName).errs
        = order.flatMap (fun j =>
            failedEntry (finalOutcome cfg world targets sourceFile outputDir binaryName j))
      ∧ (∀ j, j < targets.length →
          order.count j = 1
          ∧ (∃ t, targets[j]? = some t
              ∧ finalOutcome cfg world targets sourceFile outputDir binaryName j
                = some (t, (worker cfg world sourceFile outputDir binaryName j t).err))
          ∧ (successfulEntry
                (finalOutcome cfg world targets sourceFile outputDir binaryName j)).length
            + (skippedEntry
                (finalOutcome cfg world targets sourceFile outputDir binaryName j)).length
            + (failedEntry
                (finalOutcome cfg world targets sourceFile outputDir binaryName j)).length = 1)
      ∧ (buildWithProgress cfg world order targets sourceFile outputDir binaryName).successful.length
          + (buildWithProgress cfg world order targets sourceFile outputDir binaryName).skipped.length
          + (buildWithProgress cfg world order targets sourceFile outputDir binaryName).errs.length
        = targets.length := by
  obtain ⟨hs, hk, he⟩ := aggregate_entries cfg world order targets sourceFile outputDir binaryName
  have hjob : ∀ j, j < targets.length →
      (∃ t, targets[j]? = some t
          ∧ finalOutcome cfg world targets sourceFile outputDir binaryName j
            = some (t, (worker cfg world sourceFile outputDir binaryName j t).err))
        ∧ (successfulEntry
              (finalOutcome cfg world targets sourceFile outputDir binaryName j)).length
          + (skippedEntry
              (finalOutcome cfg world targets sourceFile outputDir binaryName j)).length
          + (failedEntry
              (finalOutcome cfg world targets sourceFile outputDir binaryName j)).length = 1 := by
    intro j hj
    have hget : targets[j]? = some targets[j] := List.getElem?_eq_getElem hj
    have hfin : finalOutcome cfg world targets sourceFile outputDir binaryName j
        = some (targets[j],
            (worker cfg world sourceFile outputDir binaryName j targets[j]).err) := by
      unfold finalOutcome
      rw [hget]
    exact ⟨⟨targets[j], hget, hfin⟩, by rw [hfin]; exact entries_of_outcome _ _⟩
  refine ⟨hs, hk, he, ?_, ?_⟩
  · intro j hj
    refine ⟨?_, hjob j hj⟩
    rw [hOrder.count_eq]
    exact List.count_eq_one_of_mem (List.nodup_range _) (List.mem_range.2 hj)
  · show (aggregate cfg world order targets sourceFile outputDir binaryName).successful.length
        + (aggregate cfg world order targets sourceFile outputDir binaryName).skipped.length
        + (aggregate cfg world order targets sourceFile outputDir binaryName).errs.length
      = targets.length
    rw [hs, hk, he, length_flatMap_three, hOrder.length_eq, List.length_range]
    intro j hj
    exact (hjob j (List.mem_range.1 (hOrder.mem_iff.1 hj))).2

theorem buildWithProgress_one_entry_per_target_witness :
    [2, 0, 1].Perm (List.range threeTargets.length)
      ∧ (buildWithProgress {} mixedWorld [2, 0, 1] threeTargets
          "main.go" "./build" "main").successful.length
        + (buildWithProgress {} mixedWorld [2, 0, 1] threeTargets
          "main.go" "./build" "main").skipped.length
        + (buildWithProgress {} mixedWorld [2, 0, 1] threeTargets
          "main.go" "./build" "main").errs.length = 3
      ∧ (buildWithProgress {} mixedWorld [2, 0, 1] threeTargets
          "main.go" "./build" "main").successful = ["linux/amd64"]
      ∧ (buildWithProgress {} mixedWorld [2, 0, 1] threeTargets
          "main.go" "./build" "main").skipped = ["android/arm64"] :=
  ⟨by decide,
    (buildWithProgress_one_entry_per_target {} mixedWorld [2, 0, 1] threeTargets
      "main.go" "./build" "main" (by decide)).2.2.2.2,
    by decide, by decide⟩


/-! ## The job executor on ios -/

/-- C12 fails as stated, in two ways. On a host that is not darwin (here
android) and has no `xcodebuild`, `buildSingle` with `--force` invokes the
compiler for ios/arm64 and returns `nil` when the compiler succeeds: the
check for `xcodebuild` is made on darwin only. And without `--force`, when
the output directory cannot be made, it returns that failure, not
`ErrSkipped`: `os.MkdirAll` runs before the ios block. -/
theorem ios_forced_counterexample :
    (offlineHost.GOOS ≠ "darwin" ∧ offlineHost.lookPath "xcodebuild" = false
        ∧ (buildSingle { Force := true } offlineHost ⟨"ios", "arm64", "ios/arm64"⟩
            "main.go" "./build" "main").invoked
          = some ⟨"go", ["go", "build", "-o", "build/ios/arm64/main", "main.go"],
              ["GOOS=ios", "GOARCH=arm64", "CGO_ENABLED=1"]⟩
        ∧ (buildSingle { Force := true } offlineHost ⟨"ios", "arm64", "ios/arm64"⟩
            "main.go" "./build" "main").err = none)
      ∧ (readOnlyHost.GOOS ≠ "darwin"
        ∧ (buildSingle {} readOnlyHost ⟨"ios", "arm64", "ios/arm64"⟩
            "main.go" "./build" "main").err
          = some (.failed "创建输出目录失败: read-only file system")) := by
  decide

/-- C12, as the code has it, for an ios target that passes the skip-CGO rule.
On a host that is not darwin: with `Force` unset `buildSingle` does not
invoke the compiler and returns an error, which is `ErrSkipped` when the
output directory could be made; with `Force` set (and the directory made) it
does not look for `xcodebuild` but invokes the compiler with `CGO_ENABLED=1`
and returns `nil` or a failure as the compiler says. On darwin, when
`xcodebuild` is missing, it does not invoke the compiler and returns a
failure, which is the one about Xcode when the directory could be made. -/
theorem ios_policy (cfg : Config) (host : Host) (target : BuildTarget)
    (sourceFile outputDir binaryName : String)
    (hOS : target.GOOS = "ios") (hCGO : cfg.SkipCGO = false) :
    (host.GOOS ≠ "darwin" → cfg.Force = false →
        (buildSingle cfg host target sourceFile outputDir binaryName).invoked = none
          ∧ (buildSingle cfg host target sourceFile outputDir binaryName).err ≠ none
          ∧ (host.mkdirAll (outputPath target outputDir binaryName) = none →
              (buildSingle cfg host target sourceFile outputDir binaryName).err
                = some BuildError.ErrSkipped))
      ∧ (host.GOOS ≠ "darwin" → cfg.Force = true →
          host.mkdirAll (outputPath target outputDir binaryName) = none →
          ∃ cmd, (buildSingle cfg host target sourceFile outputDir binaryName).invoked = some cmd
            ∧ "CGO_ENABLED=1" ∈ cmd.Env
            ∧ (buildSingle cfg host target sourceFile outputDir binaryName).err
                ≠ some BuildError.ErrSkipped
            ∧ ((buildSingle cfg host target sourceFile outputDir binaryName).err = none
                ↔ (host.combinedOutput cmd).2 = none))
      ∧ (host.GOOS = "darwin" → host.lookPath "xcodebuild" = false →
          (buildSingle cfg host target sourceFile outputDir binaryName).invoked = none
            ∧ (buildSingle cfg host target sourceFile outputDir binaryName).err ≠ none
            ∧ (host.mkdirAll (outputPath target outputDir binaryName) = none →
                (buildSingle cfg host target sourceFile outputDir binaryName).err
                  = some (BuildError.failed "iOS编译需要安装Xcode和Command Line Tools"))
            ∧ ∃ msg, (buildSingle cfg host target sourceFile outputDir binaryName).err
                  = some (BuildError.failed msg)) := by
  have h1 : ¬ ("ios" : String) = "js" := by decide
  have hskip : ¬ (cfg.SkipCGO = true ∧ (target.GOOS = "android" ∨ target.GOOS = "ios")) := by
    simp [hCGO]
  refine ⟨?_, ?_, ?_⟩
  · intro hHost hForce
    have hsetup : ∀ cmd args, platformSetup cfg host target cmd args
        = Except.error BuildError.ErrSkipped := by
      intro cmd args
      unfold platformSetup
      simp [hOS, h1, hHost, hForce]
    unfold buildSingle
    rw [if_neg hskip]
    cases hm : host.mkdirAll (outputPath target outputDir binaryName) with
    | some e => simp [hm]
    | none => simp [hm, hsetup]
  · intro hHost hForce hm
    have hsetup : ∀ cmd args, platformSetup cfg host target cmd args
        = Except.ok ⟨{ cmd with Env := cmd.Env ++ ["CGO_ENABLED=1"] }, args⟩ := by
      intro cmd args
      unfold platformSetup
      simp [hOS, h1, hHost, hForce]
    unfold buildSingle
    rw [if_neg hskip]
    simp only [hm, hsetup]
    split
    · rename_i output err heq
      exact ⟨_, rfl, by simp, by simp, by rw [heq]; simp⟩
    · rename_i output heq
      exact ⟨_, rfl, by simp, by simp, by rw [heq]; simp⟩
  · intro hHost hLook
    have hsetup : ∀ cmd args, platformSetup cfg host target cmd args
        = Except.error (BuildError.failed "iOS编译需要安装Xcode和Command Line Tools") := by
      intro cmd args
      unfold platformSetup
      simp [hOS, h1, hHost, hLook]
    unfold buildSingle
    rw [if_neg hskip]
    cases hm : host.mkdirAll (outputPath target outputDir binaryName) with
    | some e => simp [hm]
    | none => simp [hm, hsetup]


theorem ios_policy_witness :
    (⟨"ios", "arm64", "ios/arm64"⟩ : BuildTarget).GOOS = "ios"
      ∧ ({ Force := true } : Config).SkipCGO = false
      ∧ offlineHost.GOOS ≠ "darwin"
      ∧ (∃ cmd, (buildSingle { Force := true } offlineHost ⟨"ios", "arm64", "ios/arm64"⟩
            "main.go" "./build" "main").invoked = some cmd
          ∧ "CGO_ENABLED=1" ∈ cmd.Env
          ∧ (buildSingle { Force := true } offlineHost ⟨"ios", "arm64", "ios/arm64"⟩
            "main.go" "./build" "main").err ≠ some BuildError.ErrSkipped
          ∧ ((buildSingle { Force := true } offlineHost ⟨"ios", "arm64", "ios/arm64"⟩
            "main.go" "./build" "main").err = none
              ↔ (offlineHost.combinedOutput cmd).2 = none))
      ∧ (buildSingle {} offlineHost ⟨"ios", "arm64", "ios/arm64"⟩
            "main.go" "./build" "main").err = some BuildError.ErrSkipped :=
  ⟨rfl, rfl, by decide,
    (ios_policy { Force := true } offlineHost ⟨"ios", "arm64", "ios/arm64"⟩
      "main.go" "./build" "main" rfl rfl).2.1 (by decide) rfl rfl,
    ((ios_policy {} offlineHost ⟨"ios", "arm64", "ios/arm64"⟩
      "main.go" "./build" "main" rfl rfl).1 (by decide) rfl).2.2 rfl⟩

/-! ## The recorded outcome and the last attempt -/

theorem calls_append_call (l : List Event) (k : Nat) (run : BuildRun) (tail : List Event)
    (htail : calls tail = []) :
    (calls (l ++ Event.call k run :: tail)).getLast? = some run := by
  unfold calls at htail ⊢
  rw [List.filterMap_append, List.filterMap_cons]
  simp [htail]

theorem retryLoop_last_call (cfg : Config) (exec : Nat → BuildRun)
    (hM : cfg.MaxRetries < MaxInt) (n i : Nat) (st : JobResult)
    (hi : (i : Int) + n = cfg.MaxRetries + 1)
    (h : n ≠ 0 ∨ ∃ run, (calls st.trace).getLast? = some run ∧ st.err = run.err) :
    ∃ r, retryLoop cfg exec (n + 1) i st = some r
      ∧ ∃ run, (calls r.trace).getLast? = some run ∧ r.err = run.err := by
  unfold MaxInt at hM
  induction n generalizing i st with
  | zero =>
    have hw : wrapInt64 i = i := wrapInt64_of_range _ (by omega) (by omega)
    have hc : ¬ wrapInt64 i ≤ cfg.MaxRetries := by rw [hw]; omega
    rcases h with h | h
    · exact absurd rfl h
    · exact ⟨st, retryLoop_exit cfg exec 0 i st hc, h⟩
  | succ n ih =>
    have hw : wrapInt64 i = i := wrapInt64_of_range _ (by omega) (by omega)
    have hc : wrapInt64 i ≤ cfg.MaxRetries := by rw [hw]; omega
    cases hk : (exec i).err with
    | none =>
      exact ⟨_, retryLoop_step_none cfg exec (n + 1) i st hc hk,
        exec i, calls_append_call _ _ _ [] rfl, hk.symm⟩
    | some e =>
      rw [retryLoop_step_some cfg exec (n + 1) i st e hc hk]
      apply ih (i + 1) _ (by push_cast; omega)
      right
      refine ⟨exec i, ?_, hk.symm⟩
      apply calls_append_call
      split <;> rfl

/-- With `0 <= MaxRetries < MaxInt` the last `err` of a worker is the error of
the last call of the executor it made, and it made one. -/
theorem runJob_err_of_last_call (cfg : Config) (exec : Nat → BuildRun)
    (hMax : 0 ≤ cfg.MaxRetries) (hM : cfg.MaxRetries < MaxInt) :
    ∃ run, (calls (runJob cfg exec).trace).getLast? = some run
      ∧ (runJob cfg exec).err = run.err := by
  obtain ⟨r, hr, hq⟩ := retryLoop_last_call cfg exec hM (cfg.MaxRetries + 1).toNat 0 ⟨none, []⟩
    (by push_cast; omega) (Or.inl (by omega))
  have hrun : runJob cfg exec = r := by
    unfold runJob
    rw [hr]
    rfl
  rw [hrun]
  exact hq

/-- With `MaxRetries < 0` a worker makes no call and its `err` stays `nil`. -/
theorem runJob_of_negative (cfg : Config) (exec : Nat → BuildRun)
    (hMax : cfg.MaxRetries < 0) :
    runJob cfg exec = ⟨none, []⟩ := by
  have hw : wrapInt64 ((0 : Nat) : Int) = 0 := by decide
  have hc : ¬ wrapInt64 ((0 : Nat) : Int) ≤ cfg.MaxRetries := by rw [hw]; omega
  unfold runJob
  rw [retryLoop_exit cfg exec _ 0 _ hc]
  rfl

/-- C13 fails on the code: with `--max-retries=-1` the loop body never runs, so
the worker of linux/amd64 makes no call of `buildSingle` (which would fail
on this host), its `err` is still `nil`, and `buildWithProgress` records
the target as successful and returns `nil`. -/
theorem negative_retries_recorded_successful :
    (worker { MaxRetries := -1 } (fun _ _ => brokenCompilerHost) "main.go" "./build" "main" 0
        ⟨"linux", "amd64", "linux/amd64"⟩).trace = []
      ∧ (buildSingle { MaxRetries := -1 } brokenCompilerHost ⟨"linux", "amd64", "linux/amd64"⟩
          "main.go" "./build" "main").err ≠ none
      ∧ (buildWithProgress { MaxRetries := -1 } (fun _ _ => brokenCompilerHost) [0]
          [⟨"linux", "amd64", "linux/amd64"⟩] "main.go" "./build" "main").successful
        = ["linux/amd64"]
      ∧ (buildWithProgress { MaxRetries := -1 } (fun _ _ => brokenCompilerHost) [0]
          [⟨"linux", "amd64", "linux/amd64"⟩] "main.go" "./build" "main").err = none := by
  decide

end Gogogo
